import Mathlib

/-!
Verification development for the JSDOM-extract-merge service (segment
addressing, extraction and merge engine).

The JavaScript sources are shallowly embedded: JS strings are modelled as
`List Char`, the cheerio DOM as the inductive `Node` tree, and the external
capabilities (the HTML-to-tree parser, Node's `Buffer`) are modelled at the
byte/char level.  The service exists in two variants in the repository: the
standalone `server.mjs` (functions suffixed `Srv` below) and the parser
module `src/unnamed/part_002` (functions suffixed `P2`).
-/

namespace JsdomEM

/-- JS strings are sequences of characters. -/
abbrev Str := List Char

/-- Converts a Lean string literal to the model's string type. -/
def S (s : String) : Str := s.data

/-- JS `\s` whitespace class (ASCII part plus NBSP; other Unicode space
characters are not used by any theorem below). -/
def isWsJS (c : Char) : Bool :=
  c = ' ' || c = '\t' || c = '\n' || c = '\r' || c = '\x0b' || c = '\x0c' || c = '\xa0'

def isDigitCh (c : Char) : Bool := '0' ≤ c && c ≤ '9'

def isAlphaCh (c : Char) : Bool := ('a' ≤ c && c ≤ 'z') || ('A' ≤ c && c ≤ 'Z')

def isAlnumCh (c : Char) : Bool := isAlphaCh c || isDigitCh c

/-- JS regex `\w` word character. -/
def isWordCh (c : Char) : Bool := isAlnumCh c || c = '_'

/-- Accumulator loop of decimal rendering; `fuel` only drives structural
termination and is always sufficient at the call site. -/
def natReprAux : Nat → Nat → Str → Str
  | 0, _, acc => acc
  | fuel + 1, n, acc =>
    if n < 10 then Char.ofNat (48 + n % 10) :: acc
    else natReprAux fuel (n / 10) (Char.ofNat (48 + n % 10) :: acc)

/-- Decimal rendering of a number, as JS template interpolation produces. -/
def natReprJS (n : Nat) : Str := natReprAux (n + 1) n []

def digitVal (c : Char) : Nat := c.toNat - 48

/-- Value of a nonempty all-digit string. -/
def digitsVal (s : Str) : Nat := s.foldl (fun a c => a * 10 + digitVal c) 0

/-- JS `parseInt` on a string: reads the leading run of decimal digits,
ignores the rest; `none` models `NaN` (no leading digit).  (Leading
whitespace/sign handling is irrelevant to the inputs that occur here.) -/
def parseIntJS (s : Str) : Option Nat :=
  let ds := s.takeWhile isDigitCh
  if ds.isEmpty then none else some (digitsVal ds)

/-- JS `String.prototype.replace` with a single-character pattern: removes
(the model only needs removal, i.e. replacement by the empty string) the
first occurrence of `c`. -/
def removeFirst (c : Char) : Str → Str
  | [] => []
  | x :: xs => if x = c then xs else x :: removeFirst c xs

/-- JS `String.prototype.split` with a single-character separator:
`"".split(sep) = [""]`, empty fields preserved. -/
def splitCh (sep : Char) : Str → List Str
  | [] => [[]]
  | c :: cs =>
    if c = sep then [] :: splitCh sep cs
    else
      match splitCh sep cs with
      | r :: rs => (c :: r) :: rs
      | [] => [[c]]

/-- JS `Array.prototype.join` with a single-character separator. -/
def joinCh (sep : Char) : List Str → Str
  | [] => []
  | [p] => p
  | p :: ps => p ++ sep :: joinCh sep ps

/-- Fuel-driven loop of whitespace collapsing (the fuel is always
sufficient at the call site). -/
def collapseWsF : Nat → Str → Str
  | 0, _ => []
  | _, [] => []
  | fuel + 1, c :: cs =>
    if isWsJS c then ' ' :: collapseWsF fuel (cs.dropWhile isWsJS)
    else c :: collapseWsF fuel cs

/-- JS `String.prototype.replace(/\s+/g, ' ')`: collapses every maximal
whitespace run to a single space. -/
def collapseWsJS (s : Str) : Str := collapseWsF s.length s

/-- JS `String.prototype.trim`. -/
def trimJS (s : Str) : Str :=
  ((s.dropWhile isWsJS).reverse.dropWhile isWsJS).reverse

/-- `normalizeWhitespace` from server.mjs: collapse `\s+` runs, then trim. -/
def normalizeWhitespace (s : Str) : Str := trimJS (collapseWsJS s)

/-! ### Base64 (Node `Buffer` model)

`Buffer.from(path).toString('base64')` and `Buffer.from(hash, 'base64')`
operate on UTF-8 bytes.  Bytes are modelled as `Nat` with the invariant
`< 256`.  Decoding is lenient like Node's: characters outside the base64
alphabet (including `=` padding) are ignored. -/

/-- The base64 alphabet character for a sextet. -/
def sextetChar (n : Nat) : Char :=
  if n < 26 then Char.ofNat (65 + n)
  else if n < 52 then Char.ofNat (97 + (n - 26))
  else if n < 62 then Char.ofNat (48 + (n - 52))
  else if n = 62 then '+'
  else '/'

/-- Inverse alphabet lookup; `none` for characters outside the alphabet. -/
def sextetVal (c : Char) : Option Nat :=
  if 'A' ≤ c && c ≤ 'Z' then some (c.toNat - 65)
  else if 'a' ≤ c && c ≤ 'z' then some (c.toNat - 97 + 26)
  else if '0' ≤ c && c ≤ '9' then some (c.toNat - 48 + 52)
  else if c = '+' then some 62
  else if c = '/' then some 63
  else none

/-- Base64 encoding of a byte sequence, with `=` padding. -/
def b64encodeBytes : List Nat → Str
  | [] => []
  | [a] => [sextetChar (a / 4), sextetChar (a % 4 * 16), '=', '=']
  | [a, b] => [sextetChar (a / 4), sextetChar (a % 4 * 16 + b / 16), sextetChar (b % 16 * 4), '=']
  | a :: b :: c :: rest =>
    sextetChar (a / 4) :: sextetChar (a % 4 * 16 + b / 16) ::
    sextetChar (b % 16 * 4 + c / 64) :: sextetChar (c % 64) :: b64encodeBytes rest

/-- Reassembles bytes from a sextet sequence (trailing partial groups as in
standard padding-aware decoding). -/
def decodeSextets : List Nat → List Nat
  | c1 :: c2 :: c3 :: c4 :: rest =>
    (c1 * 4 + c2 / 16) :: (c2 % 16 * 16 + c3 / 4) :: (c3 % 4 * 64 + c4) :: decodeSextets rest
  | [c1, c2, c3] => [c1 * 4 + c2 / 16, c2 % 16 * 16 + c3 / 4]
  | [c1, c2] => [c1 * 4 + c2 / 16]
  | _ => []

/-- Lenient base64 decoding of a string to bytes. -/
def b64decodeBytes (s : Str) : List Nat :=
  decodeSextets (s.filterMap sextetVal)

/-! ### UTF-8 (Node string ↔ byte conversion model) -/

/-- UTF-8 encoding of one character. -/
def utf8EncodeChar (c : Char) : List Nat :=
  let n := c.toNat
  if n < 128 then [n]
  else if n < 2048 then [192 + n / 64, 128 + n % 64]
  else if n < 65536 then [224 + n / 4096, 128 + n / 64 % 64, 128 + n % 64]
  else [240 + n / 262144, 128 + n / 4096 % 64, 128 + n / 64 % 64, 128 + n % 64]

/-- UTF-8 encoding of a string. -/
def utf8Encode (s : Str) : List Nat := (s.map utf8EncodeChar).flatten

def isContByte (b : Nat) : Prop := 128 ≤ b ∧ b < 192

instance (b : Nat) : Decidable (isContByte b) := by unfold isContByte; infer_instance

/-- Decodes one character from a lead byte and the remaining bytes; returns
the character and the bytes not consumed.  A malformed lead or continuation
byte yields U+FFFD without consuming further bytes (Node's lossy
`toString('utf-8')`; such sequences are never produced by `utf8Encode`, so
the lossy branches are inert in every theorem below, and overlong-form
rejection is likewise omitted). -/
def utf8DecodeStep (b : Nat) (rest : List Nat) : Char × List Nat :=
  if b < 128 then (Char.ofNat b, rest)
  else if 192 ≤ b ∧ b < 224 then
    match rest with
    | b2 :: rest2 =>
      if isContByte b2 then (Char.ofNat ((b - 192) * 64 + (b2 - 128)), rest2) else ('�', rest)
    | [] => ('�', [])
  else if 224 ≤ b ∧ b < 240 then
    match rest with
    | b2 :: b3 :: rest2 =>
      if isContByte b2 ∧ isContByte b3 then
        (Char.ofNat ((b - 224) * 4096 + (b2 - 128) * 64 + (b3 - 128)), rest2)
      else ('�', rest)
    | _ => ('�', rest)
  else if 240 ≤ b ∧ b < 248 then
    match rest with
    | b2 :: b3 :: b4 :: rest2 =>
      if isContByte b2 ∧ isContByte b3 ∧ isContByte b4 then
        (Char.ofNat ((b - 240) * 262144 + (b2 - 128) * 4096 + (b3 - 128) * 64 + (b4 - 128)),
          rest2)
      else ('�', rest)
    | _ => ('�', rest)
  else ('�', rest)

theorem utf8DecodeStep_length (b : Nat) (rest : List Nat) :
    (utf8DecodeStep b rest).2.length ≤ rest.length := by
  unfold utf8DecodeStep
  repeat' split
  all_goals simp
  all_goals omega

/-- Fuel-driven decoding loop (the fuel is always sufficient at the call
site, since each step consumes at least the lead byte). -/
def utf8DecodeF : Nat → List Nat → Str
  | 0, _ => []
  | _, [] => []
  | fuel + 1, b :: rest => (utf8DecodeStep b rest).1 :: utf8DecodeF fuel (utf8DecodeStep b rest).2

/-- Lossy UTF-8 decoding of a byte sequence. -/
def utf8Decode (bs : List Nat) : Str := utf8DecodeF bs.length bs

theorem utf8DecodeF_fuel : ∀ (fuel : Nat) (bs : List Nat), bs.length ≤ fuel →
    utf8DecodeF fuel bs = utf8DecodeF bs.length bs := by
  intro fuel
  induction fuel using Nat.strong_induction_on with
  | _ fuel ih =>
    intro bs hlen
    match fuel, bs with
    | 0, [] => rfl
    | 0, b :: rest => simp at hlen
    | g + 1, [] => rfl
    | g + 1, b :: rest =>
      have hst := utf8DecodeStep_length b rest
      have hlen' : rest.length ≤ g := by simp at hlen; omega
      simp only [List.length_cons]
      rw [utf8DecodeF, utf8DecodeF]
      rw [ih g (Nat.lt_succ_self g) _ (le_trans hst hlen')]
      rw [ih rest.length (by omega) _ hst]

theorem utf8Decode_cons (b : Nat) (rest : List Nat) :
    utf8Decode (b :: rest) =
      (utf8DecodeStep b rest).1 :: utf8Decode (utf8DecodeStep b rest).2 := by
  rw [utf8Decode, utf8Decode]
  simp only [List.length_cons]
  rw [utf8DecodeF]
  rw [utf8DecodeF_fuel rest.length _ (utf8DecodeStep_length b rest)]

/-- `Buffer.from(s).toString('base64')`. -/
def b64encodeStr (s : Str) : Str := b64encodeBytes (utf8Encode s)

/-- `Buffer.from(s, 'base64').toString('utf-8')`. -/
def b64decodeStr (s : Str) : Str := utf8Decode (b64decodeBytes s)

/-! ### Codec roundtrip lemmas -/

theorem natReprAux_append : ∀ (fuel n : Nat) (acc : Str),
    natReprAux fuel n acc = natReprAux fuel n [] ++ acc := by
  intro fuel
  induction fuel with
  | zero => intro n acc; rfl
  | succ fuel ih =>
    intro n acc
    by_cases h : n < 10
    · rw [natReprAux, if_pos h]
      conv_rhs => rw [natReprAux, if_pos h]
      rfl
    · rw [natReprAux, if_neg h]
      conv_rhs => rw [natReprAux, if_neg h]
      rw [ih (n / 10), ih (n / 10) [Char.ofNat (48 + n % 10)]]
      simp

theorem natReprAux_fuel : ∀ (fuel n : Nat) (acc : Str), n < fuel →
    natReprAux fuel n acc = natReprAux (n + 1) n acc := by
  intro fuel
  induction fuel using Nat.strong_induction_on with
  | _ fuel ih =>
    intro n acc hn
    match fuel with
    | 0 => omega
    | g + 1 =>
      by_cases h : n < 10
      · rw [natReprAux, if_pos h, natReprAux, if_pos h]
      · have hdiv : n / 10 < n := Nat.div_lt_self (by omega) (by omega)
        rw [natReprAux, if_neg h, natReprAux, if_neg h]
        rw [ih g (Nat.lt_succ_self g) (n / 10) _ (by omega)]
        rw [ih n (by omega) (n / 10) _ hdiv]

theorem natReprJS_eq (n : Nat) : natReprJS n =
    if n < 10 then [Char.ofNat (48 + n % 10)]
    else natReprJS (n / 10) ++ [Char.ofNat (48 + n % 10)] := by
  rw [natReprJS, natReprAux]
  by_cases h : n < 10
  · rw [if_pos h, if_pos h]
  · rw [if_neg h, if_neg h]
    rw [natReprAux_fuel n (n / 10) _ (Nat.div_lt_self (by omega) (by omega))]
    rw [natReprAux_append, ← natReprJS]

theorem digit_isDigit (k : Nat) (h : k < 10) : isDigitCh (Char.ofNat (48 + k)) = true := by
  interval_cases k <;> decide

theorem digit_val (k : Nat) (h : k < 10) : digitVal (Char.ofNat (48 + k)) = k := by
  interval_cases k <;> decide

theorem natReprJS_digits (n : Nat) : ∀ c ∈ natReprJS n, isDigitCh c = true := by
  induction n using Nat.strong_induction_on with
  | _ n ih =>
    rw [natReprJS_eq]
    by_cases h : n < 10
    · rw [if_pos h]
      intro c hc
      simp at hc
      subst hc
      exact digit_isDigit _ (Nat.mod_lt _ (by omega))
    · rw [if_neg h]
      intro c hc
      rcases List.mem_append.1 hc with h1 | h2
      · exact ih (n / 10) (Nat.div_lt_self (by omega) (by omega)) c h1
      · simp at h2
        subst h2
        exact digit_isDigit _ (Nat.mod_lt _ (by omega))

theorem natReprJS_ne_nil (n : Nat) : natReprJS n ≠ [] := by
  rw [natReprJS_eq]
  by_cases h : n < 10
  · rw [if_pos h]; simp
  · rw [if_neg h]; simp

theorem digitsVal_append_one (s : Str) (d : Char) :
    digitsVal (s ++ [d]) = digitsVal s * 10 + digitVal d := by
  simp [digitsVal, List.foldl_append]

theorem digitsVal_natReprJS (n : Nat) : digitsVal (natReprJS n) = n := by
  induction n using Nat.strong_induction_on with
  | _ n ih =>
    rw [natReprJS_eq]
    by_cases h : n < 10
    · rw [if_pos h]
      simp [digitsVal, digit_val (n % 10) (Nat.mod_lt _ (by omega))]
      omega
    · rw [if_neg h]
      rw [digitsVal_append_one, ih (n / 10) (Nat.div_lt_self (by omega) (by omega)),
        digit_val (n % 10) (Nat.mod_lt _ (by omega))]
      omega

theorem takeWhile_all {p : Char → Bool} (s : Str) (h : ∀ c ∈ s, p c = true) :
    s.takeWhile p = s := by
  induction s with
  | nil => rfl
  | cons c cs ih =>
    rw [List.takeWhile_cons, if_pos (h c (by simp))]
    rw [ih fun x hx => h x (by simp [hx])]

theorem parseIntJS_natReprJS (n : Nat) : parseIntJS (natReprJS n) = some n := by
  rw [parseIntJS, takeWhile_all _ (natReprJS_digits n)]
  simp [List.isEmpty_iff, natReprJS_ne_nil n, digitsVal_natReprJS n]

theorem removeFirst_append (c : Char) (xs ys : Str) (h : c ∉ xs) :
    removeFirst c (xs ++ c :: ys) = xs ++ ys := by
  induction xs with
  | nil => simp [removeFirst]
  | cons x xs ih =>
    simp at h
    rw [List.cons_append, removeFirst, if_neg (fun he => h.1 he.symm), ih h.2,
      List.cons_append]

theorem splitCh_no_sep (sep : Char) (p : Str) (h : sep ∉ p) : splitCh sep p = [p] := by
  induction p with
  | nil => rfl
  | cons c cs ih =>
    simp at h
    rw [splitCh, if_neg (fun he => h.1 he.symm), ih h.2]

theorem splitCh_append (sep : Char) (p t : Str) (h : sep ∉ p) :
    splitCh sep (p ++ sep :: t) = p :: splitCh sep t := by
  induction p with
  | nil => simp [splitCh]
  | cons c cs ih =>
    simp at h
    rw [List.cons_append, splitCh, if_neg (fun he => h.1 he.symm), ih h.2]

theorem splitCh_joinCh (sep : Char) (ps : List Str) (hne : ps ≠ [])
    (h : ∀ p ∈ ps, sep ∉ p) : splitCh sep (joinCh sep ps) = ps := by
  induction ps with
  | nil => exact absurd rfl hne
  | cons p ps ih =>
    cases ps with
    | nil => exact splitCh_no_sep sep p (h p (by simp))
    | cons q qs =>
      have hj : joinCh sep (p :: q :: qs) = p ++ sep :: joinCh sep (q :: qs) := rfl
      rw [hj, splitCh_append sep p _ (h p (by simp))]
      have hqs : q :: qs ≠ [] := fun hq => List.noConfusion hq
      have hrec := ih hqs fun x hx => h x (by simp [hx])
      rw [hrec]

theorem sextetVal_sextetChar (n : Nat) (h : n < 64) :
    sextetVal (sextetChar n) = some n := by
  interval_cases n <;> decide

theorem sextetVal_eq : sextetVal '=' = none := by decide

theorem b64decode_encode (bs : List Nat) (h : ∀ b ∈ bs, b < 256) :
    b64decodeBytes (b64encodeBytes bs) = bs := by
  induction bs using b64encodeBytes.induct with
  | case1 => rfl
  | case2 a =>
    have ha : a < 256 := h a (by simp)
    rw [b64encodeBytes, b64decodeBytes]
    simp only [List.filterMap_cons,
      sextetVal_sextetChar (a / 4) (by omega),
      sextetVal_sextetChar (a % 4 * 16) (by omega), sextetVal_eq]
    simp [decodeSextets]
    omega
  | case3 a b =>
    have ha : a < 256 := h a (by simp)
    have hb : b < 256 := h b (by simp)
    rw [b64encodeBytes, b64decodeBytes]
    simp only [List.filterMap_cons,
      sextetVal_sextetChar (a / 4) (by omega),
      sextetVal_sextetChar (a % 4 * 16 + b / 16) (by omega),
      sextetVal_sextetChar (b % 16 * 4) (by omega), sextetVal_eq]
    simp [decodeSextets]
    omega
  | case4 a b c rest ih =>
    have ha : a < 256 := h a (by simp)
    have hb : b < 256 := h b (by simp)
    have hc : c < 256 := h c (by simp)
    have hrest : ∀ x ∈ rest, x < 256 := fun x hx => h x (by simp [hx])
    rw [b64encodeBytes, b64decodeBytes]
    simp only [List.filterMap_cons,
      sextetVal_sextetChar (a / 4) (by omega),
      sextetVal_sextetChar (a % 4 * 16 + b / 16) (by omega),
      sextetVal_sextetChar (b % 16 * 4 + c / 64) (by omega),
      sextetVal_sextetChar (c % 64) (by omega)]
    rw [decodeSextets]
    rw [b64decodeBytes] at ih
    rw [ih hrest]
    have e1 : a / 4 * 4 + (a % 4 * 16 + b / 16) / 16 = a := by omega
    have e2 : (a % 4 * 16 + b / 16) % 16 * 16 + (b % 16 * 4 + c / 64) / 4 = b := by omega
    have e3 : (b % 16 * 4 + c / 64) % 4 * 64 + c % 64 = c := by omega
    rw [e1, e2, e3]

theorem char_toNat_lt (c : Char) : c.toNat < 1114112 := by
  have h : c.toNat < 55296 ∨ (57343 < c.toNat ∧ c.toNat < 1114112) := c.valid
  omega

theorem utf8EncodeChar_lt_256 (c : Char) : ∀ b ∈ utf8EncodeChar c, b < 256 := by
  have hv := char_toNat_lt c
  intro b hb
  rw [utf8EncodeChar] at hb
  split at hb
  · simp at hb; omega
  · split at hb
    · simp at hb; rcases hb with h | h <;> omega
    · split at hb
      · simp at hb; rcases hb with h | h | h <;> omega
      · simp at hb; rcases hb with h | h | h | h <;> omega

theorem utf8Encode_lt_256 (s : Str) : ∀ b ∈ utf8Encode s, b < 256 := by
  intro b hb
  rw [utf8Encode] at hb
  simp at hb
  obtain ⟨c, _, h2⟩ := hb
  exact utf8EncodeChar_lt_256 c b h2

theorem utf8Step_1byte (b : Nat) (rest : List Nat) (h : b < 128) :
    utf8DecodeStep b rest = (Char.ofNat b, rest) := by
  rw [utf8DecodeStep.eq_def, if_pos h]

theorem utf8Step_2byte (b b2 : Nat) (rest : List Nat) (h1 : 192 ≤ b) (h2 : b < 224)
    (h3 : isContByte b2) :
    utf8DecodeStep b (b2 :: rest) = (Char.ofNat ((b - 192) * 64 + (b2 - 128)), rest) := by
  rw [utf8DecodeStep.eq_def, if_neg (by omega), if_pos (And.intro h1 h2)]
  simp only [if_pos h3]

theorem utf8Step_3byte (b b2 b3 : Nat) (rest : List Nat) (h1 : 224 ≤ b) (h2 : b < 240)
    (h3 : isContByte b2) (h4 : isContByte b3) :
    utf8DecodeStep b (b2 :: b3 :: rest) =
      (Char.ofNat ((b - 224) * 4096 + (b2 - 128) * 64 + (b3 - 128)), rest) := by
  rw [utf8DecodeStep.eq_def, if_neg (by omega), if_neg (by omega), if_pos (And.intro h1 h2)]
  simp only [if_pos (And.intro h3 h4)]

theorem utf8Step_4byte (b b2 b3 b4 : Nat) (rest : List Nat) (h1 : 240 ≤ b) (h2 : b < 248)
    (h3 : isContByte b2) (h4 : isContByte b3) (h5 : isContByte b4) :
    utf8DecodeStep b (b2 :: b3 :: b4 :: rest) =
      (Char.ofNat ((b - 240) * 262144 + (b2 - 128) * 4096 + (b3 - 128) * 64 + (b4 - 128)),
        rest) := by
  rw [utf8DecodeStep.eq_def, if_neg (by omega), if_neg (by omega), if_neg (by omega),
    if_pos (And.intro h1 h2)]
  simp only [if_pos (And.intro h3 (And.intro h4 h5))]

theorem utf8Decode_encodeChar (c : Char) (rest : List Nat) :
    utf8Decode (utf8EncodeChar c ++ rest) = c :: utf8Decode rest := by
  have hv := char_toNat_lt c
  rw [utf8EncodeChar]
  by_cases h1 : c.toNat < 128
  · rw [if_pos h1, List.cons_append, List.nil_append, utf8Decode_cons,
      utf8Step_1byte _ _ h1]
    simp [Char.ofNat_toNat]
  · by_cases h2 : c.toNat < 2048
    · rw [if_neg h1, if_pos h2]
      simp only [List.cons_append, List.nil_append]
      rw [utf8Decode_cons, utf8Step_2byte _ _ _ (by omega) (by omega)
        (And.intro (by omega) (by omega))]
      simp
      conv_rhs => rw [← Char.ofNat_toNat c]
      exact congrArg Char.ofNat (by omega)
    · by_cases h3 : c.toNat < 65536
      · rw [if_neg h1, if_neg h2, if_pos h3]
        simp only [List.cons_append, List.nil_append]
        rw [utf8Decode_cons, utf8Step_3byte _ _ _ _ (by omega) (by omega)
          (And.intro (by omega) (by omega)) (And.intro (by omega) (by omega))]
        simp
        conv_rhs => rw [← Char.ofNat_toNat c]
        exact congrArg Char.ofNat (by omega)
      · rw [if_neg h1, if_neg h2, if_neg h3]
        simp only [List.cons_append, List.nil_append]
        rw [utf8Decode_cons, utf8Step_4byte _ _ _ _ _ (by omega) (by omega)
          (And.intro (by omega) (by omega)) (And.intro (by omega) (by omega))
          (And.intro (by omega) (by omega))]
        simp
        conv_rhs => rw [← Char.ofNat_toNat c]
        exact congrArg Char.ofNat (by omega)

theorem utf8Decode_encode (s : Str) : utf8Decode (utf8Encode s) = s := by
  induction s with
  | nil => rfl
  | cons c cs ih =>
    have he : utf8Encode (c :: cs) = utf8EncodeChar c ++ utf8Encode cs := by
      simp [utf8Encode]
    rw [he, utf8Decode_encodeChar, ih]

/-- The base64 transport encoding of the path codec is reversible. -/
theorem b64decodeStr_encodeStr (s : Str) : b64decodeStr (b64encodeStr s) = s := by
  rw [b64decodeStr, b64encodeStr, b64decode_encode _ (utf8Encode_lt_256 s), utf8Decode_encode]

/-! ### DOM tree model (cheerio tree adapter)

The HTML-to-tree parser is an external collaborator (spec §1): trees enter
the model already parsed.  `Node.elem` carries the tag (lowercase, as the
cheerio HTML parser stores it), the attribute list in document order and the
ordered children; `Node.text` is a text node.  The cheerio root document
node is modelled as an element with the reserved tag `#root` (its `tagName`
is `undefined` in JS and never equal to any real tag). -/

inductive Node where
  | elem (tag : Str) (attrs : List (Str × Str)) (children : List Node)
  | text (data : Str)

mutual

def nodeDecEq : (a b : Node) → Decidable (a = b)
  | .elem t1 a1 c1, .elem t2 a2 c2 =>
    match decEq t1 t2 with
    | isFalse h => isFalse (by intro he; injection he; contradiction)
    | isTrue h1 =>
      match decEq a1 a2 with
      | isFalse h => isFalse (by intro he; injection he; contradiction)
      | isTrue h2 =>
        match nodeListDecEq c1 c2 with
        | isFalse h => isFalse (by intro he; injection he; contradiction)
        | isTrue h3 => isTrue (by rw [h1, h2, h3])
  | .elem t1 a1 c1, .text d2 => isFalse (by intro he; exact Node.noConfusion he)
  | .text d1, .elem t2 a2 c2 => isFalse (by intro he; exact Node.noConfusion he)
  | .text d1, .text d2 =>
    match decEq d1 d2 with
    | isFalse h => isFalse (by intro he; injection he; contradiction)
    | isTrue h => isTrue (by rw [h])

def nodeListDecEq : (as bs : List Node) → Decidable (as = bs)
  | [], [] => isTrue rfl
  | [], _ :: _ => isFalse (by intro he; exact List.noConfusion he)
  | _ :: _, [] => isFalse (by intro he; exact List.noConfusion he)
  | a :: as, b :: bs =>
    match nodeDecEq a b with
    | isFalse h => isFalse (by intro he; injection he; contradiction)
    | isTrue h1 =>
      match nodeListDecEq as bs with
      | isFalse h => isFalse (by intro he; injection he; contradiction)
      | isTrue h2 => isTrue (by rw [h1, h2])

end

instance : DecidableEq Node := nodeDecEq

/-- A position: the path of child indices from a root node. -/
abbrev Pos := List Nat

def Node.tag : Node → Str
  | .elem t _ _ => t
  | .text _ => []

def Node.attrs : Node → List (Str × Str)
  | .elem _ a _ => a
  | .text _ => []

def Node.children : Node → List Node
  | .elem _ _ cs => cs
  | .text _ => []

def Node.isElem : Node → Bool
  | .elem _ _ _ => true
  | .text _ => false

def Node.data : Node → Str
  | .elem _ _ _ => []
  | .text d => d

/-- `$element.html(x)` replaces an element's children wholesale. -/
def Node.setChildren : Node → List Node → Node
  | .elem t a _, cs => .elem t a cs
  | .text d, _ => .text d

/-- The element entries of a child list, paired with their index in the
full list (`k` is the index of the list head). -/
def elemChildrenAux : List Node → Nat → List (Nat × Node)
  | [], _ => []
  | c :: cs, k =>
    if c.isElem then (k, c) :: elemChildrenAux cs (k + 1) else elemChildrenAux cs (k + 1)

/-- cheerio `.children()`: the element children, paired with their index in
the full child list. -/
def elementChildren (n : Node) : List (Nat × Node) :=
  elemChildrenAux n.children 0

/-- The node at a position. -/
def nodeAt : Node → Pos → Option Node
  | n, [] => some n
  | n, i :: p => (n.children.get? i).bind fun c => nodeAt c p

/-- Replaces the `i`-th entry of a child list (out-of-range: no change). -/
def updateList (f : Node → Node) : List Node → Nat → List Node
  | [], _ => []
  | c :: cs, 0 => f c :: cs
  | c :: cs, i + 1 => c :: updateList f cs i

/-- Applies `f` to the node at a position (in-place tree mutation model). -/
def updateAt (p : Pos) (f : Node → Node) (n : Node) : Node :=
  match p, n with
  | [], n => f n
  | i :: p, .elem t a cs => .elem t a (updateList (updateAt p f) cs i)
  | _ :: _, .text d => .text d

mutual

/-- cheerio `$element.text()`: concatenated descendant text. -/
def textContent : Node → Str
  | .text d => d
  | .elem _ _ cs => textContentList cs

/-- Text content of a node list. -/
def textContentList : List Node → Str
  | [] => []
  | c :: cs => textContent c ++ textContentList cs

end

/-- HTML void elements, rendered without children or a closing tag. -/
def voidHtmlTags : List Str :=
  [S "area", S "base", S "br", S "col", S "embed", S "hr", S "img", S "input",
   S "link", S "meta", S "param", S "source", S "track", S "wbr"]

/-- Renders an attribute list: ` name="value"` for each attribute. -/
def renderAttrs : List (Str × Str) → Str
  | [] => []
  | (k, v) :: rest => ' ' :: (k ++ ('=' :: '"' :: v) ++ '"' :: renderAttrs rest)

mutual

/-- cheerio serialization of one node (`$.html(node)`), with
`decodeEntities: false` so text is emitted verbatim. -/
def serializeNode : Node → Str
  | .text d => d
  | .elem t a cs =>
    if voidHtmlTags.contains t then '<' :: (t ++ renderAttrs a) ++ ['>']
    else ('<' :: (t ++ renderAttrs a) ++ ['>']) ++ serializeList cs ++
      ('<' :: '/' :: t ++ ['>'])

/-- Serialization of a node list (`$element.html()` serializes the
children). -/
def serializeList : List Node → Str
  | [] => []
  | c :: cs => serializeNode c ++ serializeList cs

end

/-- The chain of `(parent, child-index)` pairs along a position, root side
first; `none` if the position leaves the tree. -/
def chainPairs : Node → Pos → Option (List (Node × Nat))
  | _, [] => some []
  | n, i :: p =>
    (n.children.get? i).bind fun c => (chainPairs c p).map ((n, i) :: ·)

/-! ### server.mjs: tag registry and path codec -/

/-- `CONTAINER_TAGS` of server.mjs. -/
def containerTagsSrv : List Str :=
  [S "p", S "div", S "li", S "h1", S "h2", S "h3", S "h4", S "h5", S "h6",
   S "section", S "article", S "aside", S "blockquote", S "dd", S "dt", S "dl",
   S "fieldset", S "figcaption", S "figure", S "footer", S "header", S "main",
   S "nav", S "ol", S "ul", S "td", S "th", S "tr", S "tbody", S "thead", S "tfoot"]

/-- `EXCLUDED_TAGS` of server.mjs. -/
def excludedTagsSrv : List Str :=
  [S "script", S "style", S "pre", S "code", S "canvas", S "svg",
   S "noscript", S "iframe", S "video", S "audio", S "object", S "embed",
   S "applet", S "meta", S "link"]

/-- Sibling ordinal used by `getPath`: the index of the child at position
`i` within the element children of `parent` that share its tag (cheerio
`parent.children().filter(tag).index(current)`), i.e. the number of earlier
same-tag element siblings. -/
def siblingOrdinal (parent : Node) (i : Nat) (tg : Str) : Nat :=
  ((parent.children.take i).filter fun c => c.isElem && c.tag = tg).length

/-- One step of `getPath` for the child at index `i` of `parent`:
`html`/`body` contribute their bare tag, every other element contributes
`tag[ordinal]`. -/
def getPathStep (parent : Node) (i : Nat) : Str :=
  match parent.children.get? i with
  | none => []
  | some c =>
    if c.tag = S "html" ∨ c.tag = S "body" then c.tag
    else c.tag ++ '[' :: natReprJS (siblingOrdinal parent i c.tag) ++ [']']

/-- The while-loop of `getPath` (server.mjs:172-198), processed bottom-up
over the reversed `(parent, index)` chain: each node contributes a step,
and the walk breaks right after the node tagged `html` contributes (the
synthetic root is never processed, matching the `$current.length === 0`
stop).  `acc` is the `path` array being `unshift`-ed into. -/
def getPathLoop : List (Node × Nat) → List Str → List Str
  | [], acc => acc
  | (parent, i) :: rest, acc =>
    let step := getPathStep parent i
    match parent.children.get? i with
    | none => acc
    | some c =>
      if c.tag = S "html" then step :: acc else getPathLoop rest (step :: acc)

/-- The `path` array of `getPath` for the node at `pos`, in root-to-node
order. -/
def getPathParts (root : Node) (pos : Pos) : List Str :=
  match chainPairs root pos with
  | none => []
  | some pairs => getPathLoop pairs.reverse []

/-- `getPath` (server.mjs): the canonical dotted path string. -/
def getPath (root : Node) (pos : Pos) : Str :=
  joinCh '.' (getPathParts root pos)

/-- `generatePathHash` (server.mjs:201-203): base64 of the path string. -/
def generatePathHash (path : Str) : Str := b64encodeStr path

/-- One navigation step of `findElementByPathHash` (server.mjs:206-244): a
part containing `[` and `]` selects the `index`-th same-tag element child
(`parseInt` failure, i.e. `NaN`, never selects); any other part selects the
first element child with that tag.  Returns the selected child with its
index in the full child list. -/
def selectChildSrv (n : Node) (part : Str) : Option (Nat × Node) :=
  if part.contains '[' ∧ part.contains ']' then
    let tg := part.takeWhile (· ≠ '[')
    let indexStr := ((part.dropWhile (· ≠ '[')).drop 1).takeWhile (· ≠ '[')
    match parseIntJS (removeFirst ']' indexStr) with
    | none => none
    | some k => ((elementChildren n).filter fun x => x.2.tag = tg).get? k
  else
    (elementChildren n).find? fun x => x.2.tag = part

/-- The part-replay loop of `findElementByPathHash`, returning the position
of the element reached (`none` models the `$([])` empty result). -/
def resolvePartsSrv : Node → List Str → Option Pos
  | _, [] => some []
  | n, part :: ps =>
    (selectChildSrv n part).bind fun x => (resolvePartsSrv x.2 ps).map (x.1 :: ·)

/-- `findElementByPathHash` (server.mjs): decode the base64 id, split on
`.` and replay the parts from the root. -/
def findElementByPathHash (root : Node) (hash : Str) : Option Pos :=
  resolvePartsSrv root (splitCh '.' (b64decodeStr hash))

/-! ### server.mjs: structural validator (`checkUnclosedTags`, lines
247-280) -/

/-- One tag token matched by the regex
`<\/?([a-zA-Z][a-zA-Z0-9]*)[^>]*>`: the optional `/`, the name, and the
`[^>]*` chunk before `>`. -/
structure TagTok where
  closing : Bool
  name : Str
  rawAttrs : Str
deriving DecidableEq

/-- The name-and-attributes part of the regex match: a letter, an
alphanumeric tail, then everything up to the required `>`. -/
def parseTagBody (closing : Bool) : Str → Option (TagTok × Str)
  | c :: r =>
    if isAlphaCh c then
      match (r.dropWhile isAlnumCh).dropWhile (· ≠ '>') with
      | '>' :: r3 =>
        some (⟨closing, c :: r.takeWhile isAlnumCh,
          (r.dropWhile isAlnumCh).takeWhile (· ≠ '>')⟩, r3)
      | _ => none
    else none
  | [] => none

/-- Attempts the regex match directly after a `<`: an optional `/` selects
the closing form.  Returns the token and the remaining input (the regex
`lastIndex` advances past the match). -/
def parseTagAt (cs : Str) : Option (TagTok × Str) :=
  match cs with
  | [] => none
  | c :: r => if c = '/' then parseTagBody true r else parseTagBody false (c :: r)

theorem parseTagBody_length (cl : Bool) (cs1 : Str) (tok : TagTok) (rest : Str)
    (h : parseTagBody cl cs1 = some (tok, rest)) : rest.length < cs1.length := by
  match cs1 with
  | [] => simp [parseTagBody] at h
  | c :: r =>
    rw [parseTagBody] at h
    by_cases ha : isAlphaCh c
    · rw [if_pos ha] at h
      have hr2 : ((r.dropWhile isAlnumCh).dropWhile (· ≠ '>')).length ≤ r.length :=
        le_trans (List.Sublist.length_le (List.dropWhile_sublist _))
          (List.Sublist.length_le (List.dropWhile_sublist _))
      split at h
      · rename_i r3 heq
        injection h with h
        injection h with h1 h2
        subst h2
        rw [heq] at hr2
        simp at hr2
        simp
        omega
      · exact absurd h (by simp)
    · rw [if_neg ha] at h
      exact absurd h (by simp)

theorem parseTagAt_length (cs : Str) (tok : TagTok) (rest : Str)
    (h : parseTagAt cs = some (tok, rest)) : rest.length < cs.length := by
  match cs with
  | [] => simp [parseTagAt] at h
  | c :: r =>
    rw [parseTagAt] at h
    by_cases hc : c = '/'
    · rw [if_pos hc] at h
      have := parseTagBody_length true r tok rest h
      simp
      omega
    · rw [if_neg hc] at h
      exact parseTagBody_length false (c :: r) tok rest h

/-- Fuel-driven scan loop for the full tag regex (`parseTagAt_length`
shows the fuel is always sufficient at the call site). -/
def scanTagsF : Nat → Str → List TagTok
  | 0, _ => []
  | _, [] => []
  | fuel + 1, c :: cs =>
    if c = '<' then
      match parseTagAt cs with
      | some (tok, rest) => tok :: scanTagsF fuel rest
      | none => scanTagsF fuel cs
    else scanTagsF fuel cs

/-- The `tagRegex.exec` loop: all matches of
`<\/?([a-zA-Z][a-zA-Z0-9]*)[^>]*>` in document order, each search resuming
after the previous match. -/
def scanTags (s : Str) : List TagTok := scanTagsF s.length s

/-- Void tags skipped by the server.mjs validator. -/
def voidTagsSrv : List Str :=
  [S "br", S "hr", S "img", S "input", S "meta", S "link"]

/-- `stack.lastIndexOf(tagName)` on a JS array (oldest element first). -/
def lastIdxOf (l : List Str) (x : Str) : Option Nat :=
  ((l.enum.filter fun pr => pr.2 == x).getLast?).map (·.1)

/-- The scan loop of server.mjs `checkUnclosedTags`: state is the open-tag
stack (JS array order) and the unmatched-closing list.  A token whose full
match ends in `/>` (i.e. its `[^>]*` chunk ends in `/` — the name is
alphanumeric, so only the chunk can contribute) or whose lowercase name is
void is skipped; a closing token removes the most recent matching stack
entry or is recorded as unmatched; an opening token not matching
`/\/\s*>$/` is pushed. -/
def checkAuxSrv : List TagTok → List Str → List Str → List Str × List Str
  | [], stack, missing => (stack, missing)
  | tok :: ts, stack, missing =>
    let nm := tok.name.map Char.toLower
    if tok.rawAttrs.getLast? = some '/' ∨ voidTagsSrv.contains nm then
      checkAuxSrv ts stack missing
    else if tok.closing then
      match lastIdxOf stack nm with
      | none => checkAuxSrv ts stack (missing ++ [nm])
      | some k => checkAuxSrv ts (stack.eraseIdx k) missing
    else if (tok.rawAttrs.reverse.dropWhile isWsJS).head? = some '/' then
      checkAuxSrv ts stack missing
    else checkAuxSrv ts (stack ++ [nm]) missing

/-- Result of the structural validator. -/
structure CheckResult where
  isValid : Bool
  missingTags : List Str
deriving DecidableEq

/-- `checkUnclosedTags` (server.mjs:247-280). -/
def checkUnclosedTagsSrv (text : Str) : CheckResult :=
  let r := checkAuxSrv (scanTags text) [] []
  ⟨r.2.isEmpty && r.1.isEmpty, r.2 ++ r.1⟩

/-! ### server.mjs: extraction (`handleExtract`, lines 300-364) -/

mutual

/-- Positions of the elements of a subtree, in document (preorder)
order. -/
def elemPositionsNode : Node → Pos → List Pos
  | .text _, _ => []
  | .elem _ _ cs, cur => cur :: elemPositionsList cs cur 0

/-- Positions of the elements of a forest, in document order. -/
def elemPositionsList : List Node → Pos → Nat → List Pos
  | [], _, _ => []
  | c :: cs, cur, i => elemPositionsNode c (cur ++ [i]) ++ elemPositionsList cs cur (i + 1)

end

/-- cheerio `$('*')`: every element of the document, in document order (the
synthetic root node is not an element). -/
def elemPositions (root : Node) : List Pos := elemPositionsList root.children [] 0

/-- `isInsideExcludedTag`: some ancestor (the root's `tagName` is
`undefined` and never matches) has an excluded tag. -/
def isInsideExcludedTagSrv (root : Node) (pos : Pos) : Bool :=
  match chainPairs root pos with
  | none => false
  | some pairs => pairs.any fun pr => excludedTagsSrv.contains pr.1.tag

/-- The class token list of an element: the `class` attribute split on
whitespace with empty fields dropped (`classes.split(/\s+/).filter(Boolean)`). -/
def classList (n : Node) : List Str :=
  (((n.attrs.lookup (S "class")).getD []).splitOnP isWsJS).filter fun w => !w.isEmpty

/-- `hasIgnoredClass`. -/
def hasIgnoredClass (n : Node) (ignoredClasses : List Str) : Bool :=
  if ignoredClasses.isEmpty then false
  else ignoredClasses.any fun ig => (classList n).contains ig

/-- One extracted segment (`id`, `text`, `path`, `tag` as pushed by the
handlers; `attrs` is the part_002 `attributes` map, `[]` for server.mjs
segments, which have no such field). -/
structure Segment where
  id : Str
  text : Str
  path : Str
  tag : Str
  attrs : List (Str × Str)
deriving DecidableEq

/-- The segment list produced by `handleExtract` (server.mjs:326-357) on an
already-parsed document: every container-tagged element in document order,
skipping elements inside excluded tags or with ignored classes; the text is
the (optionally whitespace-normalized) inner HTML, and a segment is pushed
only when the text is nonempty after trimming.  `extractTextSrv` is the
`$element.html()` line. -/
def extractTextSrv (preserveWs : Bool) (n : Node) : Str :=
  if preserveWs then serializeList n.children
  else normalizeWhitespace (serializeList n.children)

def handleExtractSrv (root : Node) (ignoredClasses : List Str)
    (preserveWs : Bool) : List Segment :=
  (elemPositions root).filterMap fun pos =>
    match nodeAt root pos with
    | none => none
    | some n =>
      if containerTagsSrv.contains n.tag then
        if isInsideExcludedTagSrv root pos then none
        else if hasIgnoredClass n ignoredClasses then none
        else if extractTextSrv preserveWs n ≠ [] ∧ trimJS (extractTextSrv preserveWs n) ≠ [] then
          some ⟨generatePathHash (getPath root pos), extractTextSrv preserveWs n,
            getPath root pos, n.tag, []⟩
        else none
      else none

/-! ### server.mjs: merge (`handleMerge`, lines 366-438)

The fragment parser applied by `$element.html(text)` to the translated
markup is the external tree adapter; the merge model is parametric in it
(`pf`). -/

/-- A caller-supplied translation item. -/
structure Trans where
  id : Str
  text : Str
deriving DecidableEq

/-- The `200` response payload of `handleMerge`: the final tree (the
handler serializes it), `mergedCount`, and the collected `missingIds`
(included in the JSON only when nonempty and not in strict mode; the model
carries the list itself). -/
structure MergeOkSrv where
  tree : Node
  mergedCount : Nat
  missingIds : List Str
deriving DecidableEq

/-- A `handleMerge` response: success, the `400 INVALID_STRUCTURE` safety
response, or the `422` strict-mode response.  The error responses carry no
document. -/
inductive MergeRespSrv where
  | ok (r : MergeOkSrv)
  | errUnclosed (id : Str) (tags : List Str)
  | errStrictMissing (id : Str) (missingIds : List Str)
deriving DecidableEq

/-- The translation loop of `handleMerge` (server.mjs:409-426): each id is
resolved against the current (already partially merged) tree; a resolved
element has its children replaced by the parsed fragment; an unresolved id
is recorded and, in strict mode, aborts with the `422` response. -/
def mergeLoopSrv (pf : Str → List Node) (strict : Bool) :
    List Trans → Node → Nat → List Str → MergeRespSrv
  | [], tree, cnt, missing => .ok ⟨tree, cnt, missing⟩
  | t :: ts, tree, cnt, missing =>
    match findElementByPathHash tree t.id with
    | none =>
      if strict then .errStrictMissing t.id (missing ++ [t.id])
      else mergeLoopSrv pf strict ts tree cnt (missing ++ [t.id])
    | some pos =>
      mergeLoopSrv pf strict ts (updateAt pos (fun n => n.setChildren (pf t.text)) tree)
        (cnt + 1) missing

/-- `handleMerge` (server.mjs): when the safety check is on, every
translation fragment is validated before the tree is touched and the first
unbalanced one aborts with `INVALID_STRUCTURE`; then the translation loop
runs. -/
def handleMergeSrv (pf : Str → List Node) (root : Node) (ts : List Trans)
    (safetyCheck strict : Bool) : MergeRespSrv :=
  if safetyCheck then
    match ts.find? (fun t => !(checkUnclosedTagsSrv t.text).isValid) with
    | some t => .errUnclosed t.id (checkUnclosedTagsSrv t.text).missingTags
    | none => mergeLoopSrv pf strict ts root 0 []
  else mergeLoopSrv pf strict ts root 0 []

/-! ### part_002: tag registry -/

/-- `CONTAINER_TAGS` of part_002 (includes `form`). -/
def containerTagsP2 : List Str :=
  [S "p", S "div", S "li", S "h1", S "h2", S "h3", S "h4", S "h5", S "h6", S "section",
   S "article", S "aside", S "blockquote", S "dd", S "dt", S "dl", S "fieldset",
   S "figcaption", S "figure", S "footer", S "form", S "header", S "main", S "nav",
   S "ol", S "ul", S "td", S "th", S "tr", S "tbody", S "thead", S "tfoot"]

/-- `INLINE_TAGS` of part_002 (includes `code`). -/
def inlineTagsP2 : List Str :=
  [S "a", S "b", S "strong", S "i", S "em", S "u", S "span", S "mark", S "small",
   S "sub", S "sup", S "time", S "code", S "q", S "s", S "strike", S "del", S "ins",
   S "abbr", S "acronym", S "cite", S "dfn"]

/-- `EXCLUDED_TAGS` of part_002 (includes form controls). -/
def excludedTagsP2 : List Str :=
  [S "script", S "style", S "pre", S "code", S "canvas", S "svg", S "noscript",
   S "iframe", S "video", S "audio", S "object", S "embed", S "applet", S "form",
   S "input", S "textarea", S "select", S "button", S "meta", S "link"]

mutual

/-- `EXCLUDED_TAGS.forEach(tag => $(tag).remove())` (part_002:100-102): the
net effect of the sequential removals is dropping every element with an
excluded tag (with its subtree) everywhere in the forest. -/
def removeExcludedList : List Node → List Node
  | [] => []
  | c :: cs => removeExcludedKeep c ++ removeExcludedList cs

/-- Keeps or drops one node under excluded-tag removal. -/
def removeExcludedKeep : Node → List Node
  | .text d => [.text d]
  | .elem t a ch =>
    if excludedTagsP2.contains t then [] else [.elem t a (removeExcludedList ch)]

end

/-- One indexed step `tag[ordinal]` of `generateSegmentId` (part_002:44-72)
for the child at index `i` of `parent`. -/
def stepP2 (parent : Node) (i : Nat) : Str :=
  match parent.children.get? i with
  | none => []
  | some c => c.tag ++ '[' :: natReprJS (siblingOrdinal parent i c.tag) ++ [']']

/-- `generateSegmentId` (part_002): the while-loop ascends while the parent
is not the root document node, collecting `tag[ordinal]` steps root-to-node
(so the chain pair whose parent is the root — the `html` element — is
skipped), then unshifts the literal `html` and base64-encodes the dotted
string. -/
def generateSegmentIdP2 (root : Node) (pos : Pos) : Str :=
  match chainPairs root pos with
  | none => []
  | some pairs =>
    b64encodeStr (joinCh '.' (S "html" :: (pairs.drop 1).map fun pr => stepP2 pr.1 pr.2))

/-- One `contents()` entry of the segment-text assembly (part_002:148-159):
a text child contributes its (optionally per-node normalized and trimmed)
data, an inline-tagged child its full serialization, and any other child
nothing. -/
def segTextChildP2 (preserveWs : Bool) (c : Node) : Str :=
  match c with
  | .text d => if preserveWs then d else trimJS (collapseWsJS d)
  | .elem t _ _ => if inlineTagsP2.contains (t.map Char.toLower) then serializeNode c else []

/-- The `$('*').each` loop of `extractTextSegments` (part_002:108-185) over
the element positions of the cleaned tree, carrying the `processedIds`
set. -/
def extractLoopP2 (root : Node) (ignoredClasses : List Str) (preserveWs : Bool)
    (extractAttrs : List Str) : List Pos → List Str → List Segment
  | [], _ => []
  | pos :: rest, processed =>
    match nodeAt root pos with
    | none => extractLoopP2 root ignoredClasses preserveWs extractAttrs rest processed
    | some n =>
      let tg := n.tag.map Char.toLower
      if ¬ containerTagsP2.contains tg then
        extractLoopP2 root ignoredClasses preserveWs extractAttrs rest processed
      else if ¬ ignoredClasses.isEmpty ∧
          ignoredClasses.any (fun cl => (classList n).contains cl) then
        extractLoopP2 root ignoredClasses preserveWs extractAttrs rest processed
      else if (trimJS (textContent n)).isEmpty then
        extractLoopP2 root ignoredClasses preserveWs extractAttrs rest processed
      else
        let segId := generateSegmentIdP2 root pos
        if processed.contains segId then
          extractLoopP2 root ignoredClasses preserveWs extractAttrs rest processed
        else
          let segText := trimJS ((n.children.map (segTextChildP2 preserveWs)).flatten)
          if segText.isEmpty then
            extractLoopP2 root ignoredClasses preserveWs extractAttrs rest (segId :: processed)
          else
            let attrsX := extractAttrs.filterMap fun a =>
              match n.attrs.lookup a with
              | some v => if v.isEmpty then none else some (a, v)
              | none => none
            ⟨segId, segText, b64decodeStr segId, tg, attrsX⟩ ::
              extractLoopP2 root ignoredClasses preserveWs extractAttrs rest (segId :: processed)

/-- `extractTextSegments` (part_002:90-188): remove excluded subtrees, then
scan every element in document order. -/
def extractTextSegmentsP2 (root : Node) (ignoredClasses : List Str) (preserveWs : Bool)
    (extractAttrs : List Str) : List Segment :=
  let cleaned := root.setChildren (removeExcludedList root.children)
  extractLoopP2 cleaned ignoredClasses preserveWs extractAttrs (elemPositions cleaned) []

/-! ### part_002: structural validator (`checkUnclosedTags`, lines
211-249) -/

/-- Fuel-driven scan loop for the open-tag pattern. -/
def scanOpenF : Nat → Str → List TagTok
  | 0, _ => []
  | _, [] => []
  | fuel + 1, c :: cs =>
    if c = '<' then
      match parseTagBody false cs with
      | some (tok, rest) => tok :: scanOpenF fuel rest
      | none => scanOpenF fuel cs
    else scanOpenF fuel cs

/-- Matches of the open-tag pattern `<([a-zA-Z][a-zA-Z0-9]*)[^>]*>` (no
leading slash; `text.match(tagPattern)`). -/
def scanOpenP2 (s : Str) : List TagTok := scanOpenF s.length s

/-- A close-tag match of `<\/([a-zA-Z][a-zA-Z0-9]*)>` directly after a `<`:
a slash, the name, then an immediate `>`. -/
def parseCloseAt (cs : Str) : Option (Str × Str) :=
  match cs with
  | c0 :: c :: r =>
    if c0 = '/' then
      if isAlphaCh c then
        match r.dropWhile isAlnumCh with
        | '>' :: r2 => some (c :: r.takeWhile isAlnumCh, r2)
        | _ => none
      else none
    else none
  | _ => none

theorem parseCloseAt_length (cs : Str) (nm rest : Str)
    (h : parseCloseAt cs = some (nm, rest)) : rest.length < cs.length := by
  match cs with
  | [] => simp [parseCloseAt] at h
  | [c] => simp [parseCloseAt] at h
  | c0 :: c :: r =>
    rw [parseCloseAt] at h
    by_cases h0 : c0 = '/'
    · rw [if_pos h0] at h
      by_cases ha : isAlphaCh c
      · rw [if_pos ha] at h
        have hr2 : (r.dropWhile isAlnumCh).length ≤ r.length :=
          List.Sublist.length_le (List.dropWhile_sublist _)
        split at h
        · rename_i r2 heq2
          injection h with h
          injection h with hh1 hh2
          subst hh2
          rw [heq2] at hr2
          simp at hr2
          simp
          omega
        · exact absurd h (by simp)
      · rw [if_neg ha] at h
        exact absurd h (by simp)
    · rw [if_neg h0] at h
      exact absurd h (by simp)

/-- Fuel-driven scan loop for the close-tag pattern. -/
def scanCloseF : Nat → Str → List Str
  | 0, _ => []
  | _, [] => []
  | fuel + 1, c :: cs =>
    if c = '<' then
      match parseCloseAt cs with
      | some (nm, rest) => nm :: scanCloseF fuel rest
      | none => scanCloseF fuel cs
    else scanCloseF fuel cs

/-- Matches of the close-tag pattern (`text.match(closeTagPattern)`). -/
def scanCloseP2 (s : Str) : List Str := scanCloseF s.length s

/-- Increments the (insertion-ordered) count for a key, as `Map.set(k,
get(k)+1)` does. -/
def bumpCount : List (Str × Nat) → Str → List (Str × Nat)
  | [], k => [(k, 1)]
  | (k', v) :: rest, k =>
    if k' = k then (k', v + 1) :: rest else (k', v) :: bumpCount rest k

/-- Void tags of the part_002 validator. -/
def voidTagsP2 : List Str :=
  [S "img", S "br", S "hr", S "input", S "meta", S "link", S "area", S "base",
   S "col", S "command", S "embed", S "keygen", S "param", S "source", S "track",
   S "wbr"]

/-- The open-tag counting of part_002 `checkUnclosedTags`: self-closing
matches (full match ends in `/>`) and void tags (lowercased) are skipped;
counts are keyed by the raw tag name in insertion order. -/
def openCountsP2 (toks : List TagTok) : List (Str × Nat) :=
  toks.foldl
    (fun m tok =>
      if tok.rawAttrs.getLast? = some '/' then m
      else if voidTagsP2.contains (tok.name.map Char.toLower) then m
      else bumpCount m tok.name)
    []

/-- The close-tag counting of part_002 `checkUnclosedTags`. -/
def closeCountsP2 (names : List Str) : List (Str × Nat) :=
  names.foldl bumpCount []

/-- `checkUnclosedTags` (part_002:211-249): a tag is reported missing when
it is opened more often than it is closed; closings with no opening are not
tracked, and `isValid` is defined as `missingTags.length === 0`. -/
def checkUnclosedTagsP2 (text : Str) : CheckResult :=
  let op := openCountsP2 (scanOpenP2 text)
  let cl := closeCountsP2 (scanCloseP2 text)
  let missing := (op.filter fun pr => (cl.lookup pr.1).getD 0 < pr.2).map (·.1)
  ⟨missing.isEmpty, missing⟩

/-! ### part_002: merge (`mergeTranslations`, lines 267-376) -/

/-- The part regex `^(\w+)\[(\d+)\]$`. -/
def parseRegexPartP2 (part : Str) : Option (Str × Nat) :=
  let w := part.takeWhile isWordCh
  match part.dropWhile isWordCh with
  | '[' :: r =>
    match r.dropWhile isDigitCh with
    | [']'] =>
      if w.isEmpty ∨ (r.takeWhile isDigitCh).isEmpty then none
      else some (w, digitsVal (r.takeWhile isDigitCh))
    | _ => none
  | _ => none

/-- The inner `for (j …)` scan over `$current.children()` (part_002:
336-347): walks the element children maintaining `currentCount`, breaking
with the child's full-list index when the count reaches the wanted ordinal.
Returns the selected index (if any) and the final count. -/
def p2ScanChildren (tg : Str) (k : Nat) : List (Nat × Node) → Nat → Option Nat × Nat
  | [], cnt => (none, cnt)
  | (j, c) :: rest, cnt =>
    if c.tag.map Char.toLower = tg ∨ (tg = S "text" ∧ c.isElem = false) then
      if cnt = k then (some j, cnt) else p2ScanChildren tg k rest (cnt + 1)
    else p2ScanChildren tg k rest cnt

/-- The path replay of the part_002 merge (part_002:320-353), starting at
`$.root()` and iterating the parts from index 1: a part that fails the
regex yields `found = false`; a scanned ordinal that is never reached
leaves `$current` unchanged unless the final count exceeds the ordinal
(the code's `currentCount > index` check) — the silent-stay-at-root
behaviour is part of the source. -/
def p2Nav (tree : Node) : List Str → Pos → Option Pos
  | [], cur => some cur
  | part :: rest, cur =>
    match parseRegexPartP2 part with
    | none => none
    | some (tg, k) =>
      let n := (nodeAt tree cur).getD (Node.text [])
      let r := p2ScanChildren tg k (elementChildren n) 0
      match r.1 with
      | some j => p2Nav tree rest (cur ++ [j])
      | none => if k < r.2 then none else p2Nav tree rest cur

/-- `translationMap.get(id)`: the map is built by `Map.set` over all items,
so a duplicated id resolves to the last supplied text. -/
def lastTextFor (ts : List Trans) (id : Str) : Option Str :=
  ((ts.filter fun t => t.id == id).getLast?).map (·.text)

/-- The `translations.forEach` loop of the part_002 merge: resolved targets
have their children replaced by the parsed fragment, unresolved ids are
collected in `missingSegments`. -/
def mergeLoopP2 (pf : Str → List Node) (allTs : List Trans) :
    List Trans → Node → List Str → Node × List Str
  | [], tree, missing => (tree, missing)
  | t :: rest, tree, missing =>
    let parts := splitCh '.' (b64decodeStr t.id)
    match p2Nav tree (parts.drop 1) [] with
    | some pos =>
      mergeLoopP2 pf allTs rest
        (updateAt pos (fun n => n.setChildren (pf ((lastTextFor allTs t.id).getD []))) tree)
        missing
    | none => mergeLoopP2 pf allTs rest tree (missing ++ [t.id])

/-- A part_002 `mergeTranslations` outcome: the merged tree, or one of the
thrown errors (`UNCLOSED_TAGS`, `MISSING_SEGMENTS`), which carry no
document. -/
inductive MergeRespP2 where
  | ok (tree : Node)
  | errUnclosed (tags : List Str)
  | errMissing (ids : List Str)
deriving DecidableEq

/-- `mergeTranslations` (part_002:267-376).  `validateHtmlStructure` only
fails when `cheerio.load` throws, which it does not on any input reaching
the model (the tree is already parsed), so that branch is omitted.  With
the safety check on, the first translation with nonempty text failing
`checkUnclosedTags` throws `UNCLOSED_TAGS` before the tree is touched;
after the loop, any missing segment throws `MISSING_SEGMENTS`
unconditionally. -/
def mergeTranslationsP2 (pf : Str → List Node) (root : Node) (ts : List Trans)
    (safetyCheck : Bool) : MergeRespP2 :=
  let run := fun (_ : Unit) =>
    let r := mergeLoopP2 pf ts ts root []
    if r.2.isEmpty then MergeRespP2.ok r.1 else MergeRespP2.errMissing r.2
  if safetyCheck then
    match ts.find? (fun t => !t.text.isEmpty &&
        (!(checkUnclosedTagsP2 t.text).isValid &&
          !(checkUnclosedTagsP2 t.text).missingTags.isEmpty)) with
    | some t => .errUnclosed (checkUnclosedTagsP2 t.text).missingTags
    | none => run ()
  else run ()

/-- Modelled from the spec: the raw HTML fragment parser applied by
`$element.html(text)` is an external collaborator (spec §1, a conformant
HTML tree-construction library); on a fragment containing no markup, a
conformant parser yields a single text node.  Used only with markup-free
fragments. -/
def parseTextFrag (s : Str) : List Node := [Node.text s]

/-! ### Concrete documents

These are the trees a conformant HTML parser (cheerio's `load`, spec §1:
out of scope, specified at its interface) produces for the concrete inputs
of the testable properties: the fragment is wrapped in
`html > head + body`. -/

/-- The parsed tree of
`<div><h1>Welcome</h1><p>Read <a href="/doc">this</a> guide.</p></div>`. -/
def exDoc2 : Node :=
  .elem (S "#root") []
    [.elem (S "html") []
      [.elem (S "head") [] [],
       .elem (S "body") []
        [.elem (S "div") []
          [.elem (S "h1") [] [.text (S "Welcome")],
           .elem (S "p") []
            [.text (S "Read "),
             .elem (S "a") [(S "href", S "/doc")] [.text (S "this")],
             .text (S " guide.")]]]]]

/-- The parsed tree of `<p>Hello</p>`. -/
def helloDoc : Node :=
  .elem (S "#root") []
    [.elem (S "html") []
      [.elem (S "head") [] [],
       .elem (S "body") [] [.elem (S "p") [] [.text (S "Hello")]]]]

/-- The parsed tree of `<div><p>x</p></div>`. -/
def divPDoc : Node :=
  .elem (S "#root") []
    [.elem (S "html") []
      [.elem (S "head") [] [],
       .elem (S "body") []
        [.elem (S "div") [] [.elem (S "p") [] [.text (S "x")]]]]]

/-- Modelled from the spec: a conformant fragment parser's output on the
two concrete translation fragments used below — `<p>y</p>` parses to a `p`
element with text `y`, a markup-free fragment to a text node. -/
def parseFragEx (s : Str) : List Node :=
  if s = S "<p>y</p>" then [Node.elem (S "p") [] [Node.text (S "y")]]
  else [Node.text s]

/-- Translation targeting the `div` of `divPDoc` with fragment
`<p>y</p>`. -/
def transDiv : Trans := ⟨b64encodeStr (S "html.body.div[0]"), S "<p>y</p>"⟩

/-- Translation targeting the `p` inside the `div` of `divPDoc`. -/
def transP : Trans := ⟨b64encodeStr (S "html.body.div[0].p[0]"), S "z"⟩

/-! ### Claim theorems -/

/-- C6 counterexample: the claimed contract says a closing tag with no
matching open name is recorded as unmatched-closing and makes the fragment
unbalanced, but the count-based part_002 `checkUnclosedTags` reports the
fragment `</strong>` balanced with an empty `missingTags` — it only counts
opens in excess of closes and never records unmatched closing tags.  (The
stack-based server.mjs validator does flag the same fragment.) -/
theorem c6_counterexample :
    checkUnclosedTagsP2 (S "</strong>") = ⟨true, []⟩ ∧
    checkUnclosedTagsSrv (S "</strong>") = ⟨false, [S "strong"]⟩ := by decide

/-- C6 (amended): the stack-based server.mjs validator satisfies the
claimed contract — a fragment is balanced iff both the unmatched-closing
list and the leftover stack are empty (`missingTags` is their
concatenation), `check("<strong>world")` is unbalanced with unmatched tags
`["strong"]`, `check("<strong>world</strong>")` is balanced, and a lone
closing tag is recorded as unmatched.  The count-based part_002 validator
satisfies only the weaker contract: a fragment is balanced iff its
`missingTags` (the tags opened more often than closed) is empty, and a
lone closing tag is not recorded — `check("</strong>")` is reported
balanced there. -/
theorem c6_amended :
    (∀ s : Str, (checkUnclosedTagsSrv s).isValid = true ↔
      (checkUnclosedTagsSrv s).missingTags = []) ∧
    checkUnclosedTagsSrv (S "<strong>world") = ⟨false, [S "strong"]⟩ ∧
    (checkUnclosedTagsSrv (S "<strong>world</strong>")).isValid = true ∧
    checkUnclosedTagsSrv (S "</strong>") = ⟨false, [S "strong"]⟩ ∧
    (∀ s : Str, (checkUnclosedTagsP2 s).isValid = true ↔
      (checkUnclosedTagsP2 s).missingTags = []) ∧
    checkUnclosedTagsP2 (S "</strong>") = ⟨true, []⟩ := by
  refine ⟨fun s => ?_, by decide, by decide, by decide, fun s => ?_, by decide⟩
  · rw [checkUnclosedTagsSrv]
    simp [List.isEmpty_iff]
  · have h : (checkUnclosedTagsP2 s).isValid =
        (checkUnclosedTagsP2 s).missingTags.isEmpty := rfl
    rw [h]
    simp [List.isEmpty_iff]

/-- C2 counterexample: on the spec's example document the second segment's
text is `Read<a href="/doc">this</a>guide.` — the extractor trims each text
node individually, so the claimed text
`Read <a href="/doc">this</a> guide.` (with spaces around the inline tag)
is not produced. -/
theorem c2_counterexample :
    (extractTextSegmentsP2 exDoc2 [] false []).map Segment.text ≠
      [S "Welcome", S "Read <a href=\"/doc\">this</a> guide."] := by decide

/-- C2 (amended): extraction on the example document yields exactly two
segments, in document order — `h1` with text `Welcome`, then `p` with text
`Read<a href="/doc">this</a>guide.` (each text node is whitespace-collapsed
and trimmed individually, so the spaces adjacent to the preserved inline
tag are lost) — their ids are distinct, and no segment is emitted for the
enclosing `div` (its direct contents are only non-inline elements, so its
assembled text is empty). -/
theorem c2_amended :
    extractTextSegmentsP2 exDoc2 [] false [] =
      [⟨b64encodeStr (S "html.body[0].div[0].h1[0]"), S "Welcome",
        S "html.body[0].div[0].h1[0]", S "h1", []⟩,
       ⟨b64encodeStr (S "html.body[0].div[0].p[0]"),
        S "Read<a href=\"/doc\">this</a>guide.",
        S "html.body[0].div[0].p[0]", S "p", []⟩] ∧
    b64encodeStr (S "html.body[0].div[0].h1[0]") ≠
      b64encodeStr (S "html.body[0].div[0].p[0]") ∧
    (∀ sg ∈ extractTextSegmentsP2 exDoc2 [] false [], sg.tag ≠ S "div") := by decide

/-- C7: the claim (identity merge reproduces the document) is right and the
part_002 merge code is wrong: replaying the extractor's own segments of
`<p>Hello</p>` through `mergeTranslations`, the path replay skips part 0
but starts at `$.root()` instead of the `html` element, every step fails to
advance silently (the `currentCount > index` guard never fires), and the
"resolved" root has its children replaced — the merge reports success and
returns a document that is just the text `Hello`, not a tree equal to the
input. -/
theorem c7_identity_merge_bug :
    mergeTranslationsP2 parseTextFrag helloDoc
      ((extractTextSegmentsP2 helloDoc [] false []).map fun sg => Trans.mk sg.id sg.text)
      true = .ok (Node.elem (S "#root") [] [Node.text (S "Hello")]) ∧
    Node.elem (S "#root") [] [Node.text (S "Hello")] ≠ helloDoc := by decide

/-- C4 counterexample: a part_002 merge call (no strict option exists in
that engine) with one unresolvable id does not record it and continue to a
successful response — it aborts by throwing `MISSING_SEGMENTS`, producing
no merged HTML at all. -/
theorem c4_counterexample :
    mergeTranslationsP2 parseTextFrag helloDoc
      [⟨b64encodeStr (S "html.body"), S "x"⟩] true =
      .errMissing [b64encodeStr (S "html.body")] := by decide

/-- C8 counterexample: two translations with distinct addresses — the `div`
of `<div><p>x</p></div>` and the `p` inside it — produce different final
documents depending on order, because each id is resolved against the
already-mutated tree: replacing the `div` children first lets the `p`
address resolve into the freshly inserted fragment. -/
theorem c8_counterexample :
    transDiv.id ≠ transP.id ∧
    handleMergeSrv parseFragEx divPDoc [transDiv, transP] true false ≠
      handleMergeSrv parseFragEx divPDoc [transP, transDiv] true false := by decide

/-- Invariant of the extraction loop: the ids of the emitted segments are
pairwise distinct and avoid the already-processed set. -/
theorem extractLoopP2_nodup (root : Node) (ig : List Str) (pw : Bool) (ea : List Str) :
    ∀ (poss : List Pos) (processed : List Str),
      ((extractLoopP2 root ig pw ea poss processed).map Segment.id).Nodup ∧
      ∀ x ∈ (extractLoopP2 root ig pw ea poss processed).map Segment.id, x ∉ processed := by
  intro poss
  induction poss with
  | nil =>
    intro processed
    exact ⟨by simp [extractLoopP2], by simp [extractLoopP2]⟩
  | cons pos rest ih =>
    intro processed
    simp only [extractLoopP2]
    split
    · exact ih processed
    · split
      · exact ih processed
      · split
        · exact ih processed
        · split
          · exact ih processed
          · split
            · exact ih processed
            · split
              · refine ⟨(ih _).1, fun x hx hxp => (ih _).2 x hx (List.mem_cons.2 (Or.inr hxp))⟩
              · rename_i hnotin _
                constructor
                · rw [List.map_cons]
                  refine List.nodup_cons.2 ⟨?_, (ih _).1⟩
                  intro hm
                  exact (ih _).2 _ hm (List.mem_cons_self _ _)
                · intro x hx
                  rw [List.map_cons] at hx
                  rcases List.mem_cons.1 hx with rfl | hx'
                  · intro hxp
                    exact hnotin (List.elem_iff.2 hxp)
                  · intro hxp
                    exact (ih _).2 x hx' (List.mem_cons.2 (Or.inr hxp))

/-- C10: within a single extraction call the emitted ids are pairwise
distinct — the `processedIds` set makes every id the extractor pushes
unique, so a translation item's id designates at most one target. -/
theorem c10_extract_ids_nodup (root : Node) (ig : List Str) (pw : Bool) (ea : List Str) :
    ((extractTextSegmentsP2 root ig pw ea).map Segment.id).Nodup := by
  rw [extractTextSegmentsP2]
  exact (extractLoopP2_nodup _ ig pw ea _ []).1

/-- Every segment id the part_002 extractor can emit is a base64
encoding. -/
theorem generateSegmentIdP2_enc (root : Node) (pos : Pos) :
    ∃ p, generateSegmentIdP2 root pos = b64encodeStr p := by
  rw [generateSegmentIdP2]
  cases chainPairs root pos with
  | none => exact ⟨[], rfl⟩
  | some pairs => exact ⟨_, rfl⟩

/-- Invariant of the extraction loop: every emitted segment's id is a
base64 encoding and its `path` field is the decoding of its id. -/
theorem extractLoopP2_ids (root : Node) (ig : List Str) (pw : Bool) (ea : List Str) :
    ∀ (poss : List Pos) (processed : List Str) (sg : Segment),
      sg ∈ extractLoopP2 root ig pw ea poss processed →
      ∃ p, sg.id = b64encodeStr p ∧ sg.path = b64decodeStr sg.id := by
  intro poss
  induction poss with
  | nil => intro processed sg h; simp [extractLoopP2] at h
  | cons pos rest ih =>
    intro processed sg h
    simp only [extractLoopP2] at h
    split at h
    · exact ih processed sg h
    · split at h
      · exact ih processed sg h
      · split at h
        · exact ih processed sg h
        · split at h
          · exact ih processed sg h
          · split at h
            · exact ih processed sg h
            · split at h
              · exact ih _ sg h
              · rcases List.mem_cons.1 h with rfl | h'
                · obtain ⟨p, hp⟩ := generateSegmentIdP2_enc root pos
                  exact ⟨p, hp, rfl⟩
                · exact ih _ sg h'

/-- C9: for every segment emitted by extraction, the `id` is exactly the
base64 encoding of the `path` field, and decoding `id` recovers `path`
character for character — for the part_002 extractor (whose `path` is
computed by decoding the id) and for the server.mjs handler (whose `id` is
`generatePathHash` of the path). -/
theorem c9_id_is_base64_of_path :
    (∀ (root : Node) (ig : List Str) (pw : Bool) (ea : List Str) (sg : Segment),
      sg ∈ extractTextSegmentsP2 root ig pw ea →
      b64decodeStr sg.id = sg.path ∧ sg.id = b64encodeStr sg.path) ∧
    (∀ (root : Node) (ig : List Str) (pw : Bool) (sg : Segment),
      sg ∈ handleExtractSrv root ig pw →
      sg.id = generatePathHash sg.path ∧ b64decodeStr sg.id = sg.path) := by
  constructor
  · intro root ig pw ea sg hsg
    rw [extractTextSegmentsP2] at hsg
    obtain ⟨p, hid, hpath⟩ := extractLoopP2_ids _ ig pw ea _ [] sg hsg
    refine ⟨hpath.symm, ?_⟩
    have hp : sg.path = p := by rw [hpath, hid, b64decodeStr_encodeStr]
    rw [hp, ← hid]
  · intro root ig pw sg hsg
    rw [handleExtractSrv] at hsg
    obtain ⟨pos, _, hf⟩ := List.mem_filterMap.1 hsg
    split at hf
    · exact absurd hf (by simp)
    · split at hf
      · split at hf
        · exact absurd hf (by simp)
        · split at hf
          · exact absurd hf (by simp)
          · split at hf
            · injection hf with hf
              subst hf
              exact ⟨rfl, by
                rw [Segment.id, Segment.path]
                exact b64decodeStr_encodeStr _⟩
            · exact absurd hf (by simp)
      · exact absurd hf (by simp)

/-- The empty fragment passes the part_002 structural check. -/
theorem checkP2_nil : checkUnclosedTagsP2 [] = ⟨true, []⟩ := by decide

/-- The part_002 check's `isValid` is by definition the emptiness of its
missing-tag list. -/
theorem checkP2_isValid (s : Str) :
    (checkUnclosedTagsP2 s).isValid = (checkUnclosedTagsP2 s).missingTags.isEmpty := rfl

/-- C3: with the safety check enabled, the presence of any unbalanced
translation fragment makes the whole merge return the structural error —
the fragments are validated before the tree is touched, so no translation
is applied and no merged HTML is produced (the error constructors carry no
document): stated for the part_002 engine (`UNCLOSED_TAGS`) and the
server.mjs handler (`INVALID_STRUCTURE`), with any strict setting. -/
theorem c3_safety_check_atomic :
    (∀ (pf : Str → List Node) (root : Node) (ts : List Trans),
      (∃ t ∈ ts, (checkUnclosedTagsP2 t.text).isValid = false) →
      ∃ tags, mergeTranslationsP2 pf root ts true = .errUnclosed tags) ∧
    (∀ (pf : Str → List Node) (root : Node) (ts : List Trans) (strict : Bool),
      (∃ t ∈ ts, (checkUnclosedTagsSrv t.text).isValid = false) →
      ∃ id tags, handleMergeSrv pf root ts true strict = .errUnclosed id tags) := by
  constructor
  · intro pf root ts hex
    obtain ⟨t, ht, hv⟩ := hex
    have hpred : (ts.find? (fun t => !t.text.isEmpty &&
        (!(checkUnclosedTagsP2 t.text).isValid &&
          !(checkUnclosedTagsP2 t.text).missingTags.isEmpty))).isSome := by
      refine List.find?_isSome.2 ⟨t, ht, ?_⟩
      have hne : t.text ≠ [] := by
        intro he
        rw [he, checkP2_nil] at hv
        simp at hv
      have hmiss : (checkUnclosedTagsP2 t.text).missingTags ≠ [] := by
        intro he
        have h2 : (checkUnclosedTagsP2 t.text).isValid = true := by
          rw [checkP2_isValid, he]
          rfl
        rw [h2] at hv
        exact Bool.noConfusion hv
      simp [hv, List.isEmpty_iff, hne, hmiss]
    obtain ⟨t', ht'⟩ := Option.isSome_iff_exists.1 hpred
    rw [mergeTranslationsP2]
    rw [if_pos rfl]
    rw [ht']
    exact ⟨_, rfl⟩
  · intro pf root ts strict hex
    obtain ⟨t, ht, hv⟩ := hex
    have hpred : (ts.find? (fun t => !(checkUnclosedTagsSrv t.text).isValid)).isSome :=
      List.find?_isSome.2 ⟨t, ht, by simp [hv]⟩
    obtain ⟨t', ht'⟩ := Option.isSome_iff_exists.1 hpred
    rw [handleMergeSrv, if_pos rfl, ht']
    exact ⟨_, _, rfl⟩

/-- The non-strict translation loop always completes with a success
response in which every input item was either applied or recorded
missing. -/
theorem mergeLoopSrv_nonstrict (pf : Str → List Node) :
    ∀ (ts : List Trans) (tree : Node) (cnt : Nat) (missing : List Str),
      ∃ r, mergeLoopSrv pf false ts tree cnt missing = .ok r ∧
        r.mergedCount + r.missingIds.length = cnt + missing.length + ts.length := by
  intro ts
  induction ts with
  | nil =>
    intro tree cnt missing
    exact ⟨⟨tree, cnt, missing⟩, rfl, by simp⟩
  | cons t ts ih =>
    intro tree cnt missing
    rw [mergeLoopSrv]
    cases findElementByPathHash tree t.id with
    | none =>
      obtain ⟨r, hr, hcount⟩ := ih tree cnt (missing ++ [t.id])
      refine ⟨r, hr, ?_⟩
      simp at hcount ⊢
      omega
    | some pos =>
      obtain ⟨r, hr, hcount⟩ := ih (updateAt pos (fun n => n.setChildren (pf t.text)) tree)
        (cnt + 1) missing
      refine ⟨r, hr, ?_⟩
      simp at hcount ⊢
      omega

/-- C4 (amended): for the server.mjs handler, a merge call with strict mode
off never aborts on unresolved ids — whenever the safety phase passes, the
call completes with a success response carrying the merged tree, and the
applied count plus the number of recorded unresolved ids accounts for every
translation item (nothing is silently dropped).  The part_002 engine does
not satisfy the claim: see the counterexample. -/
theorem c4_amended_nonstrict_completes (pf : Str → List Node) (root : Node)
    (ts : List Trans) (sc : Bool)
    (hsafe : ∀ t ∈ ts, (checkUnclosedTagsSrv t.text).isValid = true) :
    ∃ r, handleMergeSrv pf root ts sc false = .ok r ∧
      r.mergedCount + r.missingIds.length = ts.length := by
  have hloop := mergeLoopSrv_nonstrict pf ts root 0 []
  obtain ⟨r, hr, hcount⟩ := hloop
  rw [handleMergeSrv]
  cases sc with
  | false =>
    rw [if_neg (by simp)]
    exact ⟨r, hr, by simpa using hcount⟩
  | true =>
    rw [if_pos rfl]
    have hnone : ts.find? (fun t => !(checkUnclosedTagsSrv t.text).isValid) = none :=
      List.find?_eq_none.2 fun t ht => by simp [hsafe t ht]
    rw [hnone]
    exact ⟨r, hr, by simpa using hcount⟩

/-- In strict mode a success response implies the missing-id list is
exactly the one the loop started with. -/
theorem mergeLoopSrv_strict_ok (pf : Str → List Node) :
    ∀ (ts : List Trans) (tree : Node) (cnt : Nat) (missing : List Str) (r : MergeOkSrv),
      mergeLoopSrv pf true ts tree cnt missing = .ok r → r.missingIds = missing := by
  intro ts
  induction ts with
  | nil =>
    intro tree cnt missing r h
    rw [mergeLoopSrv] at h
    injection h with h
    rw [← h]
  | cons t ts ih =>
    intro tree cnt missing r h
    rw [mergeLoopSrv] at h
    cases hf : findElementByPathHash tree t.id with
    | none =>
      rw [hf] at h
      rw [if_pos rfl] at h
      exact absurd h (by simp)
    | some pos =>
      rw [hf] at h
      exact ih _ _ _ r h

/-- C5: a strict-mode merge with an unresolvable id reports failure and
surfaces no partial mutation — (a) any strict-mode success response has an
empty missing-id list, so whenever some id failed to resolve the response
is one of the error constructors, which carry no HTML; (b) concretely, if
the first translation's id does not resolve (and the safety phase passes),
the handler returns the `422` strict response naming exactly that id. -/
theorem c5_strict_no_partial :
    (∀ (pf : Str → List Node) (root : Node) (ts : List Trans) (sc : Bool) (r : MergeOkSrv),
      handleMergeSrv pf root ts sc true = .ok r → r.missingIds = []) ∧
    (∀ (pf : Str → List Node) (root : Node) (t : Trans) (ts : List Trans),
      (∀ u ∈ t :: ts, (checkUnclosedTagsSrv u.text).isValid = true) →
      findElementByPathHash root t.id = none →
      handleMergeSrv pf root (t :: ts) true true = .errStrictMissing t.id [t.id]) := by
  constructor
  · intro pf root ts sc r h
    rw [handleMergeSrv] at h
    cases sc with
    | false =>
      rw [if_neg (by simp)] at h
      exact mergeLoopSrv_strict_ok pf ts root 0 [] r h
    | true =>
      rw [if_pos rfl] at h
      cases hfind : ts.find? (fun t => !(checkUnclosedTagsSrv t.text).isValid) with
      | none =>
        rw [hfind] at h
        exact mergeLoopSrv_strict_ok pf ts root 0 [] r h
      | some t =>
        rw [hfind] at h
        exact absurd h (by simp)
  · intro pf root t ts hsafe hnone
    rw [handleMergeSrv, if_pos rfl]
    have hfind : (t :: ts).find? (fun u => !(checkUnclosedTagsSrv u.text).isValid) = none :=
      List.find?_eq_none.2 fun u hu => by simp [hsafe u hu]
    rw [hfind, mergeLoopSrv, hnone, if_pos rfl]
    simp

/-- Witness for C3: a merge with a fragment holding an unclosed `strong`
aborts with the structural error. -/
theorem c3_witness :
    (∃ t ∈ [Trans.mk (S "A") (S "<strong>world")],
      (checkUnclosedTagsP2 t.text).isValid = false) ∧
    ∃ tags, mergeTranslationsP2 parseTextFrag helloDoc
      [Trans.mk (S "A") (S "<strong>world")] true = .errUnclosed tags :=
  ⟨by decide, c3_safety_check_atomic.1 parseTextFrag helloDoc _ (by decide)⟩

/-- Witness for the amended C4: a non-strict merge with one resolvable and
one unresolvable id completes, accounting for both items. -/
theorem c4_amended_witness :
    (∀ t ∈ [Trans.mk (b64encodeStr (S "html.body.p[0]")) (S "Hi"),
        Trans.mk (S "QQ") (S "x")],
      (checkUnclosedTagsSrv t.text).isValid = true) ∧
    ∃ r, handleMergeSrv parseTextFrag helloDoc
        [Trans.mk (b64encodeStr (S "html.body.p[0]")) (S "Hi"),
         Trans.mk (S "QQ") (S "x")] true false = .ok r ∧
      r.mergedCount + r.missingIds.length = 2 :=
  ⟨by decide,
    c4_amended_nonstrict_completes parseTextFrag helloDoc _ true (by decide)⟩

/-- Witness for C5: a strict merge whose only id does not resolve returns
the strict error response naming it. -/
theorem c5_witness :
    (∀ u ∈ [Trans.mk (S "QQ") (S "x")], (checkUnclosedTagsSrv u.text).isValid = true) ∧
    findElementByPathHash helloDoc (S "QQ") = none ∧
    handleMergeSrv parseTextFrag helloDoc [Trans.mk (S "QQ") (S "x")] true true =
      .errStrictMissing (S "QQ") [S "QQ"] :=
  ⟨by decide, by decide,
    c5_strict_no_partial.2 parseTextFrag helloDoc ⟨S "QQ", S "x"⟩ [] (by decide) (by decide)⟩

/-- Witness for C9: the `h1` segment of the example document decodes back
to its path. -/
theorem c9_witness :
    ((⟨b64encodeStr (S "html.body[0].div[0].h1[0]"), S "Welcome",
      S "html.body[0].div[0].h1[0]", S "h1", []⟩ : Segment) ∈
      extractTextSegmentsP2 exDoc2 [] false []) ∧
    b64decodeStr (b64encodeStr (S "html.body[0].div[0].h1[0]")) =
      S "html.body[0].div[0].h1[0]" := by
  have hm : (⟨b64encodeStr (S "html.body[0].div[0].h1[0]"), S "Welcome",
      S "html.body[0].div[0].h1[0]", S "h1", []⟩ : Segment) ∈
      extractTextSegmentsP2 exDoc2 [] false [] := by decide
  exact ⟨hm, (c9_id_is_base64_of_path.1 exDoc2 [] false [] _ hm).1⟩

/-! ### Position machinery for the amended order-independence claim -/

theorem setChildren_tag (n : Node) (cs : List Node) : (n.setChildren cs).tag = n.tag := by
  cases n <;> rfl

theorem setChildren_isElem (n : Node) (cs : List Node) :
    (n.setChildren cs).isElem = n.isElem := by
  cases n <;> rfl

theorem updateAt_tag (q : Pos) (f : Node → Node) (hf : ∀ m, (f m).tag = m.tag) (n : Node) :
    (updateAt q f n).tag = n.tag := by
  cases q with
  | nil => exact hf n
  | cons i p => cases n <;> rfl

theorem updateAt_isElem (q : Pos) (f : Node → Node)
    (hf : ∀ m, (f m).isElem = m.isElem) (n : Node) :
    (updateAt q f n).isElem = n.isElem := by
  cases q with
  | nil => exact hf n
  | cons i p => cases n <;> rfl

theorem updateList_get? (f : Node → Node) :
    ∀ (cs : List Node) (i j : Nat),
      (updateList f cs i).get? j = if i = j then (cs.get? j).map f else cs.get? j := by
  intro cs
  induction cs with
  | nil => intro i j; simp [updateList]
  | cons c cs ih =>
    intro i j
    match i, j with
    | 0, 0 => simp [updateList]
    | 0, j + 1 => simp [updateList]
    | i + 1, 0 => simp [updateList]
    | i + 1, j + 1 =>
      rw [updateList]
      simp only [List.get?_cons_succ]
      rw [ih i j]
      by_cases h : i = j
      · simp [h]
      · simp [h, fun hc => h (Nat.succ_injective hc)]

theorem elemChildrenAux_idx : ∀ (cs : List Node) (k : Nat) (x : Nat × Node),
    x ∈ elemChildrenAux cs k → k ≤ x.1 := by
  intro cs
  induction cs with
  | nil => intro k x hx; simp [elemChildrenAux] at hx
  | cons c cs ih =>
    intro k x hx
    rw [elemChildrenAux] at hx
    by_cases he : c.isElem
    · rw [if_pos he] at hx
      rcases List.mem_cons.1 hx with rfl | hx'
      · exact le_refl _
      · exact le_trans (Nat.le_succ k) (ih (k + 1) x hx')
    · rw [if_neg he] at hx
      exact le_trans (Nat.le_succ k) (ih (k + 1) x hx)

theorem elemChildrenAux_updateList (g : Node → Node)
    (hg : ∀ m, (g m).isElem = m.isElem) :
    ∀ (cs : List Node) (j k : Nat),
      elemChildrenAux (updateList g cs j) k =
        (elemChildrenAux cs k).map fun x => if x.1 = k + j then (x.1, g x.2) else x := by
  intro cs
  induction cs with
  | nil => intro j k; simp [updateList, elemChildrenAux]
  | cons c cs ih =>
    intro j k
    match j with
    | 0 =>
      rw [updateList, elemChildrenAux, elemChildrenAux, hg c]
      by_cases he : c.isElem
      · rw [if_pos he, if_pos he, List.map_cons]
        rw [if_pos (by omega : k = k + 0)]
        have hrest : (elemChildrenAux cs (k + 1)).map
            (fun x => if x.1 = k + 0 then (x.1, g x.2) else x) =
            elemChildrenAux cs (k + 1) := by
          rw [List.map_congr_left ?_, List.map_id]
          intro x hx
          have := elemChildrenAux_idx cs (k + 1) x hx
          rw [if_neg (by omega)]
          rfl
        rw [hrest]
      · rw [if_neg he, if_neg he]
        rw [List.map_congr_left ?_, List.map_id]
        intro x hx
        have := elemChildrenAux_idx cs (k + 1) x hx
        rw [if_neg (by omega)]
        rfl
    | j + 1 =>
      rw [updateList, elemChildrenAux, elemChildrenAux]
      by_cases he : c.isElem
      · rw [if_pos he, if_pos he, List.map_cons]
        rw [if_neg (by omega : ¬ k = k + (j + 1))]
        rw [ih j (k + 1)]
        congr 1
        apply List.map_congr_left
        intro x hx
        have h1 : k + 1 + j = k + (j + 1) := by omega
        rw [h1]
      · rw [if_neg he, if_neg he, ih j (k + 1)]
        apply List.map_congr_left
        intro x hx
        have h1 : k + 1 + j = k + (j + 1) := by omega
        rw [h1]

/-- `p` is a (not necessarily proper) prefix of `q`. -/
def posBelow (p q : Pos) : Prop := q.take p.length = p

instance (p q : Pos) : Decidable (posBelow p q) := by unfold posBelow; infer_instance

/-- Two positions in disjoint subtrees: neither is a prefix of the
other. -/
def posIncomp (p q : Pos) : Prop := ¬ posBelow p q ∧ ¬ posBelow q p

instance (p q : Pos) : Decidable (posIncomp p q) := by unfold posIncomp; infer_instance

theorem posBelow_nil (q : Pos) : posBelow [] q := by
  unfold posBelow
  simp

theorem posIncomp_symm (p q : Pos) (h : posIncomp p q) : posIncomp q p := ⟨h.2, h.1⟩

theorem posBelow_cons (a b : Nat) (p q : Pos) :
    posBelow (a :: p) (b :: q) ↔ b = a ∧ posBelow p q := by
  unfold posBelow
  simp only [List.length_cons, List.take_succ_cons, List.cons.injEq]

theorem posIncomp_cons (a : Nat) (p q : Pos) (h : posIncomp (a :: p) (a :: q)) :
    posIncomp p q := by
  refine ⟨fun hb => h.1 ?_, fun hb => h.2 ?_⟩
  · exact (posBelow_cons a a p q).2 ⟨rfl, hb⟩
  · exact (posBelow_cons a a q p).2 ⟨rfl, hb⟩

theorem find?_congr_here {α : Type} (p q : α → Bool) (l : List α)
    (h : ∀ x ∈ l, p x = q x) : l.find? p = l.find? q := by
  induction l with
  | nil => rfl
  | cons c cs ih =>
    by_cases hc : q c = true
    · rw [List.find?_cons_of_pos _ (by rw [h c (by simp)]; exact hc),
        List.find?_cons_of_pos _ hc]
    · rw [List.find?_cons_of_neg _ (by rw [h c (by simp)]; simpa using hc),
        List.find?_cons_of_neg _ (by simpa using hc)]
      exact ih fun x hx => h x (by simp [hx])

/-- `selectChildSrv` sees through an update of the `j`-th child that
preserves element-ness and tags: the same index is selected, with the
updated child. -/
theorem selectChildSrv_updateList (t : Str) (a : List (Str × Str)) (cs : List Node)
    (part : Str) (j : Nat) (g : Node → Node)
    (hgE : ∀ m, (g m).isElem = m.isElem) (hgT : ∀ m, (g m).tag = m.tag) :
    selectChildSrv (.elem t a (updateList g cs j)) part =
      (selectChildSrv (.elem t a cs) part).map
        fun x => if x.1 = j then (x.1, g x.2) else x := by
  have hec : elementChildren (Node.elem t a (updateList g cs j)) =
      (elementChildren (Node.elem t a cs)).map
        fun x => if x.1 = j then (x.1, g x.2) else x := by
    show elemChildrenAux (updateList g cs j) 0 = _
    rw [elemChildrenAux_updateList g hgE cs j 0]
    simp only [Nat.zero_add]
    rfl
  simp only [selectChildSrv]
  split
  · rw [hec]
    cases parseIntJS (removeFirst ']'
        (((part.dropWhile (· ≠ '[')).drop 1).takeWhile (· ≠ '['))) with
    | none => rfl
    | some k =>
      rw [List.filter_map]
      have hfc : (elementChildren (Node.elem t a cs)).filter
          ((fun x => decide (x.2.tag = part.takeWhile (· ≠ '['))) ∘
            fun x => if x.1 = j then (x.1, g x.2) else x) =
          (elementChildren (Node.elem t a cs)).filter
            (fun x => decide (x.2.tag = part.takeWhile (· ≠ '['))) := by
        apply List.filter_congr
        intro x _
        by_cases hx : x.1 = j
        · simp [Function.comp, hx, hgT x.2]
        · simp [Function.comp, hx]
      rw [hfc]
      exact List.get?_map _ _ _
  · rw [hec, List.find?_map]
    have hfc : (elementChildren (Node.elem t a cs)).find?
        ((fun x => decide (x.2.tag = part)) ∘ fun x => if x.1 = j then (x.1, g x.2) else x) =
        (elementChildren (Node.elem t a cs)).find? fun x => decide (x.2.tag = part) := by
      apply find?_congr_here
      intro x _
      by_cases hx : x.1 = j
      · simp [Function.comp, hx, hgT x.2]
      · simp [Function.comp, hx]
    rw [hfc]

/-- Lifting of the selection stability to `updateAt` below a child. -/
theorem selectChildSrv_updateAt (n : Node) (part : Str) (j : Nat) (q' : Pos)
    (f : Node → Node) (hfE : ∀ m, (f m).isElem = m.isElem)
    (hfT : ∀ m, (f m).tag = m.tag) :
    selectChildSrv (updateAt (j :: q') f n) part =
      (selectChildSrv n part).map
        fun x => if x.1 = j then (x.1, updateAt q' f x.2) else x := by
  cases n with
  | text d =>
    have hsel : selectChildSrv (Node.text d) part = none := by
      simp only [selectChildSrv, elementChildren, Node.children, elemChildrenAux]
      split <;> simp
      split <;> rfl
    show selectChildSrv (Node.text d) part = _
    rw [hsel]
    rfl
  | elem t a cs =>
    exact selectChildSrv_updateList t a cs part j (updateAt q' f)
      (updateAt_isElem q' f hfE) (updateAt_tag q' f hfT)

/-- Resolution stability: a children replacement at `q` does not disturb
the resolution of any part list resolving to a position `p` of which `q`
is not a proper prefix (in particular at `q = p` itself or anywhere in a
disjoint subtree). -/
theorem resolvePartsSrv_updateAt (f : Node → Node)
    (hfE : ∀ m, (f m).isElem = m.isElem) (hfT : ∀ m, (f m).tag = m.tag) :
    ∀ (ps : List Str) (n : Node) (p q : Pos),
      resolvePartsSrv n ps = some p → ¬ (posBelow q p ∧ q ≠ p) →
      resolvePartsSrv (updateAt q f n) ps = some p := by
  intro ps
  induction ps with
  | nil =>
    intro n p q hres hq
    rw [resolvePartsSrv] at hres ⊢
    exact hres
  | cons part ps ih =>
    intro n p q hres hq
    rw [resolvePartsSrv] at hres
    cases hsel : selectChildSrv n part with
    | none => rw [hsel] at hres; simp at hres
    | some x =>
      rw [hsel] at hres
      simp only [Option.some_bind] at hres
      cases hrec : resolvePartsSrv x.2 ps with
      | none => rw [hrec] at hres; simp at hres
      | some p' =>
        rw [hrec] at hres
        simp only [Option.map_some'] at hres
        injection hres with hres
        subst hres
        cases q with
        | nil =>
          exact absurd ⟨posBelow_nil _, fun he => List.noConfusion he.symm⟩ hq
        | cons j q' =>
          rw [resolvePartsSrv, selectChildSrv_updateAt n part j q' f hfE hfT, hsel]
          simp only [Option.map_some', Option.some_bind]
          by_cases hij : x.1 = j
          · rw [if_pos hij]
            have hq' : ¬ (posBelow q' p' ∧ q' ≠ p') := by
              intro ⟨hb, hne⟩
              apply hq
              constructor
              · exact (posBelow_cons j x.1 q' p').2 ⟨hij, hb⟩
              · intro he
                injection he with h1 h2
                exact hne h2
            rw [ih x.2 p' q' hrec hq']
            rfl
          · rw [if_neg hij, hrec]
            rfl

theorem updateList_comm (f g : Node → Node) :
    ∀ (cs : List Node) (i j : Nat), i ≠ j →
      updateList f (updateList g cs j) i = updateList g (updateList f cs i) j := by
  intro cs
  induction cs with
  | nil => intro i j _; simp [updateList]
  | cons c cs ih =>
    intro i j hij
    match i, j with
    | 0, 0 => exact absurd rfl hij
    | 0, j + 1 => simp [updateList]
    | i + 1, 0 => simp [updateList]
    | i + 1, j + 1 =>
      simp only [updateList]
      rw [ih i j (fun h => hij (by rw [h]))]

theorem updateList_after (f g : Node → Node) :
    ∀ (cs : List Node) (i : Nat),
      updateList f (updateList g cs i) i = updateList (fun c => f (g c)) cs i := by
  intro cs
  induction cs with
  | nil => intro i; simp [updateList]
  | cons c cs ih =>
    intro i
    match i with
    | 0 => simp [updateList]
    | i + 1 =>
      simp only [updateList]
      rw [ih i]

/-- Children replacements at incomparable positions commute. -/
theorem updateAt_comm (f1 f2 : Node → Node) :
    ∀ (q1 q2 : Pos) (n : Node), posIncomp q1 q2 →
      updateAt q2 f2 (updateAt q1 f1 n) = updateAt q1 f1 (updateAt q2 f2 n) := by
  intro q1
  induction q1 with
  | nil =>
    intro q2 n h
    exact absurd (posBelow_nil q2) h.1
  | cons i q1' ih =>
    intro q2 n h
    cases q2 with
    | nil => exact absurd (posBelow_nil (i :: q1')) h.2
    | cons j q2' =>
      cases n with
      | text d => rfl
      | elem t a cs =>
        show Node.elem t a (updateList (updateAt q2' f2)
            (updateList (updateAt q1' f1) cs i) j) =
          Node.elem t a (updateList (updateAt q1' f1)
            (updateList (updateAt q2' f2) cs j) i)
        by_cases hij : i = j
        · subst hij
          have hinc : posIncomp q1' q2' := posIncomp_cons i q1' q2' h
          rw [updateList_after, updateList_after]
          have hfun : (fun c => updateAt q2' f2 (updateAt q1' f1 c)) =
              fun c => updateAt q1' f1 (updateAt q2' f2 c) :=
            funext fun c => ih q2' c hinc
          rw [hfun]
        · rw [updateList_comm _ _ cs j i (fun hc => hij hc.symm)]

/-- One translation's mutation, with its address resolved against the
reference tree `root`. -/
def updOf (pf : Str → List Node) (root : Node) (t : Trans) (tree : Node) : Node :=
  match findElementByPathHash root t.id with
  | none => tree
  | some pos => updateAt pos (fun n => n.setChildren (pf t.text)) tree

/-- Batch application of translations whose addresses are resolved against
`root`. -/
def applyAll (pf : Str → List Node) (root : Node) (ts : List Trans) (tree : Node) : Node :=
  ts.foldl (fun tr t => updOf pf root t tr) tree

/-- The pairwise non-interference relation between two translations: their
addresses resolve (against `root`) to incomparable positions. -/
def disjointTargets (root : Node) (a b : Trans) : Prop :=
  ∀ pa pb, findElementByPathHash root a.id = some pa →
    findElementByPathHash root b.id = some pb → posIncomp pa pb

theorem disjointTargets_symm (root : Node) {a b : Trans}
    (h : disjointTargets root a b) : disjointTargets root b a :=
  fun pa pb hpa hpb => posIncomp_symm _ _ (h pb pa hpb hpa)

theorem updOf_eq (pf : Str → List Node) (root : Node) (t : Trans) (tree : Node) (p : Pos)
    (h : findElementByPathHash root t.id = some p) :
    updOf pf root t tree = updateAt p (fun n => n.setChildren (pf t.text)) tree := by
  rw [updOf, h]

theorem findEl_updateAt (tree : Node) (hash : Str) (p q : Pos) (cs2 : List Node)
    (hres : findElementByPathHash tree hash = some p) (hq : ¬ (posBelow q p ∧ q ≠ p)) :
    findElementByPathHash (updateAt q (fun n => n.setChildren cs2) tree) hash = some p := by
  rw [findElementByPathHash] at hres ⊢
  exact resolvePartsSrv_updateAt _ (fun m => setChildren_isElem m cs2)
    (fun m => setChildren_tag m cs2) _ tree p q hres hq

/-- With addresses that all resolve against the original tree to pairwise
incomparable positions, the non-strict translation loop applies every item
at its original position: the result is the batch application, every item
counts as merged and nothing is missing. -/
theorem mergeLoopSrv_batch (pf : Str → List Node) (root : Node) :
    ∀ (ts : List Trans) (tree : Node) (cnt : Nat) (missing : List Str),
      (∀ t ∈ ts, ∃ p, findElementByPathHash root t.id = some p) →
      (∀ t ∈ ts, findElementByPathHash tree t.id = findElementByPathHash root t.id) →
      List.Pairwise (disjointTargets root) ts →
      mergeLoopSrv pf false ts tree cnt missing =
        .ok ⟨applyAll pf root ts tree, cnt + ts.length, missing⟩ := by
  intro ts
  induction ts with
  | nil =>
    intro tree cnt missing _ _ _
    rw [mergeLoopSrv]
    simp [applyAll]
  | cons t ts ih =>
    intro tree cnt missing hres hinv hpair
    obtain ⟨p, hp⟩ := hres t (List.mem_cons_self _ _)
    have htree : findElementByPathHash tree t.id = some p := by
      rw [hinv t (List.mem_cons_self _ _), hp]
    rw [mergeLoopSrv, htree]
    have happ : applyAll pf root (t :: ts) tree =
        applyAll pf root ts (updateAt p (fun n => n.setChildren (pf t.text)) tree) := by
      rw [applyAll, List.foldl_cons, updOf, hp]
      rfl
    have hrel := (List.pairwise_cons.1 hpair).1
    have hinv' : ∀ u ∈ ts, findElementByPathHash
        (updateAt p (fun n => n.setChildren (pf t.text)) tree) u.id =
        findElementByPathHash root u.id := by
      intro u hu
      obtain ⟨pu, hpu⟩ := hres u (List.mem_cons_of_mem _ hu)
      have hincomp : posIncomp p pu := hrel u hu p pu hp hpu
      have hu1 : findElementByPathHash tree u.id = some pu := by
        rw [hinv u (List.mem_cons_of_mem _ hu), hpu]
      rw [hpu]
      exact findEl_updateAt tree u.id pu p _ hu1 (fun hc => hincomp.1 hc.1)
    have hrec := ih (updateAt p (fun n => n.setChildren (pf t.text)) tree) (cnt + 1) missing
      (fun u hu => hres u (List.mem_cons_of_mem _ hu)) hinv'
      (List.pairwise_cons.1 hpair).2
    show mergeLoopSrv pf false ts
      (updateAt p (fun n => n.setChildren (pf t.text)) tree) (cnt + 1) missing = _
    rw [hrec, ← happ]
    have hc : cnt + 1 + ts.length = cnt + (t :: ts).length := by simp; omega
    rw [hc]

/-- Batch application is invariant under permutation when the targets are
pairwise disjoint. -/
theorem applyAll_perm (pf : Str → List Node) (root : Node) :
    ∀ (l1 l2 : List Trans), l1.Perm l2 →
      (∀ t ∈ l1, ∃ p, findElementByPathHash root t.id = some p) →
      List.Pairwise (disjointTargets root) l1 →
      ∀ tree, applyAll pf root l1 tree = applyAll pf root l2 tree := by
  intro l1 l2 hperm
  induction hperm with
  | nil => intro _ _ _; rfl
  | cons x h ih =>
    intro hres hpair tree
    rw [applyAll, List.foldl_cons, applyAll, List.foldl_cons]
    exact ih (fun u hu => hres u (List.mem_cons_of_mem _ hu))
      (List.pairwise_cons.1 hpair).2 (updOf pf root x tree)
  | swap x y l =>
    intro hres hpair tree
    rw [applyAll, List.foldl_cons, List.foldl_cons,
      applyAll, List.foldl_cons, List.foldl_cons]
    have hkey : updOf pf root x (updOf pf root y tree) =
        updOf pf root y (updOf pf root x tree) := by
      obtain ⟨py, hpy⟩ := hres y (List.mem_cons_self _ _)
      obtain ⟨px, hpx⟩ := hres x (List.mem_cons_of_mem _ (List.mem_cons_self _ _))
      have hincomp : posIncomp py px :=
        (List.pairwise_cons.1 hpair).1 x (List.mem_cons_self _ _) py px hpy hpx
      rw [updOf_eq pf root y tree py hpy, updOf_eq pf root x tree px hpx,
        updOf_eq pf root x _ px hpx, updOf_eq pf root y _ py hpy]
      exact updateAt_comm _ _ py px tree hincomp
    rw [hkey]
  | trans h1 h2 ih1 ih2 =>
    intro hres hpair tree
    rw [ih1 hres hpair tree]
    exact ih2 (fun u hu => hres u (h1.mem_iff.2 hu))
      ((h1.pairwise_iff (fun hab => disjointTargets_symm root hab)).1 hpair) tree

/-- C8 (amended): resolution happens against the current, already
partially merged tree, so the claimed order-independence fails for nested
targets (see the counterexample); it does hold whenever the translations'
addresses resolve against the original tree to pairwise incomparable
positions (targets in disjoint subtrees): then a non-strict merge produces
the identical response — same merged tree, same applied count, no
unresolved ids — under any permutation of the items. -/
theorem c8_amended_order_independence (pf : Str → List Node) (root : Node)
    (ts ts' : List Trans) (hperm : ts.Perm ts')
    (hres : ∀ t ∈ ts, ∃ p, findElementByPathHash root t.id = some p)
    (hpair : List.Pairwise (disjointTargets root) ts) :
    handleMergeSrv pf root ts false false = handleMergeSrv pf root ts' false false := by
  rw [handleMergeSrv, handleMergeSrv, if_neg (by simp), if_neg (by simp)]
  rw [mergeLoopSrv_batch pf root ts root 0 [] hres (fun t _ => rfl) hpair]
  rw [mergeLoopSrv_batch pf root ts' root 0 []
    (fun t ht => hres t (hperm.mem_iff.2 ht)) (fun t _ => rfl)
    ((hperm.pairwise_iff (fun hab => disjointTargets_symm root hab)).1 hpair)]
  have h1 : applyAll pf root ts root = applyAll pf root ts' root :=
    applyAll_perm pf root ts ts' hperm hres hpair root
  have h2 : ts.length = ts'.length := hperm.length_eq
  rw [h1, h2]

/-- Translation targeting the `h1` of the example document. -/
def transH1 : Trans := ⟨b64encodeStr (S "html.body.div[0].h1[0]"), S "X"⟩

/-- Translation targeting the `p` of the example document. -/
def transPex : Trans := ⟨b64encodeStr (S "html.body.div[0].p[0]"), S "Y"⟩

/-- Witness for the amended C8: swapping two translations aimed at the
sibling `h1` and `p` of the example document leaves the merge response
unchanged. -/
theorem c8_amended_witness :
    handleMergeSrv parseTextFrag exDoc2 [transH1, transPex] false false =
      handleMergeSrv parseTextFrag exDoc2 [transPex, transH1] false false := by
  have hH : findElementByPathHash exDoc2 transH1.id = some [0, 1, 0, 0] := by decide
  have hP : findElementByPathHash exDoc2 transPex.id = some [0, 1, 0, 1] := by decide
  refine c8_amended_order_independence parseTextFrag exDoc2 [transH1, transPex]
    [transPex, transH1] (List.Perm.swap transPex transH1 []) ?_ ?_
  · intro t ht
    rcases List.mem_cons.1 ht with rfl | ht'
    · exact ⟨[0, 1, 0, 0], hH⟩
    · rcases List.mem_cons.1 ht' with rfl | ht''
      · exact ⟨[0, 1, 0, 1], hP⟩
      · simp at ht''
  · refine List.Pairwise.cons ?_ (List.pairwise_singleton _ _)
    intro b hb pa pb hpa hpb
    have hb' : b = transPex := by simpa using hb
    subst hb'
    rw [hH] at hpa
    rw [hP] at hpb
    injection hpa with hpa
    injection hpb with hpb
    subst hpa
    subst hpb
    decide

/-! ### Address roundtrip machinery -/

theorem natReprJS_chars (n : Nat) :
    ∀ c ∈ natReprJS n, ∃ k, k < 10 ∧ c = Char.ofNat (48 + k) := by
  induction n using Nat.strong_induction_on with
  | _ n ih =>
    rw [natReprJS_eq]
    by_cases h : n < 10
    · rw [if_pos h]
      intro c hc
      simp at hc
      subst hc
      exact ⟨n % 10, Nat.mod_lt _ (by omega), rfl⟩
    · rw [if_neg h]
      intro c hc
      rcases List.mem_append.1 hc with h1 | h2
      · exact ih (n / 10) (Nat.div_lt_self (by omega) (by omega)) c h1
      · simp at h2
        subst h2
        exact ⟨n % 10, Nat.mod_lt _ (by omega), rfl⟩

theorem digitChar_not_special (k : Nat) (h : k < 10) :
    Char.ofNat (48 + k) ≠ '.' ∧ Char.ofNat (48 + k) ≠ '[' ∧ Char.ofNat (48 + k) ≠ ']' := by
  interval_cases k <;> exact ⟨by decide, by decide, by decide⟩

theorem natReprJS_no_dot (n : Nat) :
    ∀ c ∈ natReprJS n, c ≠ '.' ∧ c ≠ '[' ∧ c ≠ ']' := by
  intro c hc
  obtain ⟨k, hk, rfl⟩ := natReprJS_chars n c hc
  exact digitChar_not_special k hk

theorem takeWhile_append_stop {p : Char → Bool} (xs ys : Str) (y : Char)
    (hall : ∀ x ∈ xs, p x = true) (hy : p y = false) :
    (xs ++ y :: ys).takeWhile p = xs := by
  induction xs with
  | nil =>
    rw [List.nil_append, List.takeWhile_cons, hy]
    rfl
  | cons x xs ih =>
    rw [List.cons_append, List.takeWhile_cons, hall x (by simp), if_pos rfl,
      ih fun z hz => hall z (by simp [hz])]

theorem dropWhile_append_stop {p : Char → Bool} (xs ys : Str) (y : Char)
    (hall : ∀ x ∈ xs, p x = true) (hy : p y = false) :
    (xs ++ y :: ys).dropWhile p = y :: ys := by
  induction xs with
  | nil =>
    rw [List.nil_append, List.dropWhile_cons, hy]
    rfl
  | cons x xs ih =>
    rw [List.cons_append, List.dropWhile_cons, hall x (by simp), if_pos rfl]
    exact ih fun z hz => hall z (by simp [hz])

theorem eic_mem (cs : List Node) :
    ∀ (k : Nat) (x : Nat × Node), x ∈ elemChildrenAux cs k →
      k ≤ x.1 ∧ cs.get? (x.1 - k) = some x.2 := by
  induction cs with
  | nil => intro k x hx; simp [elemChildrenAux] at hx
  | cons c cs ih =>
    intro k x hx
    rw [elemChildrenAux] at hx
    by_cases he : c.isElem
    · rw [if_pos he] at hx
      rcases List.mem_cons.1 hx with rfl | hx'
      · exact ⟨le_refl _, by simp⟩
      · obtain ⟨hk, hg⟩ := ih (k + 1) x hx'
        refine ⟨le_trans (Nat.le_succ k) hk, ?_⟩
        have hd : x.1 - k = (x.1 - (k + 1)) + 1 := by omega
        rw [hd, List.get?_cons_succ]
        exact hg
    · rw [if_neg he] at hx
      obtain ⟨hk, hg⟩ := ih (k + 1) x hx
      refine ⟨le_trans (Nat.le_succ k) hk, ?_⟩
      have hd : x.1 - k = (x.1 - (k + 1)) + 1 := by omega
      rw [hd, List.get?_cons_succ]
      exact hg

/-- Whatever `selectChildSrv` returns is a real child at the returned
index. -/
theorem selectChildSrv_get (n : Node) (part : Str) (x : Nat × Node)
    (h : selectChildSrv n part = some x) : n.children.get? x.1 = some x.2 := by
  simp only [selectChildSrv] at h
  have hmem : x ∈ elementChildren n := by
    split at h
    · split at h
      · exact absurd h (by simp)
      · exact List.mem_filter.1 (List.get?_mem h) |>.1
    · exact List.mem_of_find?_eq_some h
  have := eic_mem n.children 0 x hmem
  simpa using this.2

/-- A part without brackets takes the `find` branch. -/
theorem selectChildSrv_bare (n : Node) (part : Str)
    (hnb : ¬ (part.contains '[' = true ∧ part.contains ']' = true)) :
    selectChildSrv n part = (elementChildren n).find? fun x => decide (x.2.tag = part) := by
  simp only [selectChildSrv]
  rw [if_neg hnb]

/-- The `tag[ordinal]`-th same-tag element child lemma: in the filtered
element children, the child at index `i` (tagged `tg`) sits exactly at its
sibling ordinal. -/
theorem eic_filter_get (tg : Str) :
    ∀ (cs : List Node) (i : Nat) (c : Node) (k : Nat),
      cs.get? i = some c → c.isElem = true → c.tag = tg →
      ((elemChildrenAux cs k).filter fun x => decide (x.2.tag = tg)).get?
        ((cs.take i |>.filter fun d => d.isElem && d.tag = tg).length) =
        some (k + i, c) := by
  intro cs
  induction cs with
  | nil => intro i c k hg; simp at hg
  | cons d cs ih =>
    intro i c k hg he ht
    match i with
    | 0 =>
      simp at hg
      subst hg
      rw [List.take_zero]
      simp only [List.filter_nil, List.length_nil]
      rw [elemChildrenAux, if_pos he, List.filter_cons]
      simp only [ht, decide_eq_true_eq]
      rw [if_pos (by simp)]
      simp
    | i + 1 =>
      rw [List.get?_cons_succ] at hg
      have ihk := ih i c (k + 1) hg he ht
      have harith : k + 1 + i = k + (i + 1) := by omega
      rw [harith] at ihk
      rw [List.take_succ_cons, List.filter_cons, elemChildrenAux]
      by_cases hde : d.isElem = true
      · by_cases hdt : d.tag = tg
        · rw [hde, hdt, if_pos rfl,
            if_pos (show (true && decide (tg = tg)) = true by simp),
            List.filter_cons, if_pos (by simp [hdt]), List.length_cons,
            List.get?_cons_succ]
          exact ihk
        · rw [hde, if_pos rfl, if_neg (by simp [hdt]),
            List.filter_cons, if_neg (by simp [hdt])]
          exact ihk
      · rw [if_neg hde, if_neg (by simp [hde])]
        exact ihk

/-- `selectChildSrv` on a well-formed `tag[k]` part reduces to the filtered
lookup. -/
theorem selectChildSrv_idx (n : Node) (tg : Str) (k : Nat)
    (htag : ∀ c ∈ tg, c ≠ '.' ∧ c ≠ '[' ∧ c ≠ ']') :
    selectChildSrv n (tg ++ '[' :: natReprJS k ++ [']']) =
      ((elementChildren n).filter fun x => decide (x.2.tag = tg)).get? k := by
  have hshape : (tg ++ '[' :: natReprJS k ++ [']'] : Str) =
      tg ++ '[' :: (natReprJS k ++ [']']) := by
    rw [List.append_assoc, List.cons_append]
  rw [hshape]
  have hc1 : (tg ++ '[' :: (natReprJS k ++ [']'])).contains '[' = true := by
    simp [List.contains]
  have hc2 : (tg ++ '[' :: (natReprJS k ++ [']'])).contains ']' = true := by
    simp [List.contains]
  have htake : (tg ++ '[' :: (natReprJS k ++ [']'])).takeWhile (· ≠ '[') = tg :=
    takeWhile_append_stop tg (natReprJS k ++ [']']) '['
      (fun x hx => decide_eq_true (htag x hx).2.1) (by decide)
  have hdrop : (tg ++ '[' :: (natReprJS k ++ [']'])).dropWhile (· ≠ '[') =
      '[' :: (natReprJS k ++ [']']) :=
    dropWhile_append_stop tg (natReprJS k ++ [']']) '['
      (fun x hx => decide_eq_true (htag x hx).2.1) (by decide)
  have htake2 : ((natReprJS k ++ [']']) : Str).takeWhile (· ≠ '[') =
      natReprJS k ++ [']'] := by
    apply takeWhile_all
    intro c hc
    rcases List.mem_append.1 hc with h1 | h2
    · simp [(natReprJS_no_dot k c h1).2.1]
    · simp at h2
      subst h2
      decide
  have hrem : removeFirst ']' (natReprJS k ++ [']']) = natReprJS k := by
    have := removeFirst_append ']' (natReprJS k) [] fun hmem =>
      (natReprJS_no_dot k ']' hmem).2.2 rfl
    simpa using this
  simp only [selectChildSrv]
  rw [if_pos (And.intro hc1 hc2), htake, hdrop]
  simp only [List.drop_succ_cons, List.drop_zero]
  rw [htake2, hrem, parseIntJS_natReprJS]

/-- A tag name on which the path round-trips: not the bare-step tags
`html`/`body`, and free of the path metacharacters `.`, `[`, `]`. -/
def goodTagB (t : Str) : Bool :=
  decide (t ≠ S "html") && decide (t ≠ S "body") &&
    t.all fun c => decide (c ≠ '.') && decide (c ≠ '[') && decide (c ≠ ']')

theorem goodTagB_spec (t : Str) (h : goodTagB t = true) :
    t ≠ S "html" ∧ t ≠ S "body" ∧ ∀ c ∈ t, c ≠ '.' ∧ c ≠ '[' ∧ c ≠ ']' := by
  rw [goodTagB] at h
  simp only [Bool.and_eq_true, decide_eq_true_eq, List.all_eq_true] at h
  exact ⟨h.1.1, h.1.2, fun c hc =>
    ⟨(h.2 c hc).1.1, (h.2 c hc).1.2, (h.2 c hc).2⟩⟩

/-- Every step of the position hits an element child with a good tag. -/
def goodChainB : Node → Pos → Bool
  | _, [] => true
  | n, i :: p =>
    match n.children.get? i with
    | none => false
    | some c => c.isElem && goodTagB c.tag && goodChainB c p

/-- The element child selected first by tag name sits at index `i` of the
full child list. -/
def firstElemAt (n : Node) (tg : Str) (i : Nat) : Bool :=
  match (elementChildren n).find? fun x => decide (x.2.tag = tg) with
  | some x => decide (x.1 = i)
  | none => false

/-- A position on which `getPath` round-trips: it enters the unique
`html`-tagged first element child, then the `body`-tagged first element
child, and below that follows element children with good tags. -/
def goodDocB (root : Node) (pos : Pos) : Bool :=
  match pos with
  | i0 :: i1 :: rest =>
    match root.children.get? i0 with
    | none => false
    | some h1 =>
      match h1.children.get? i1 with
      | none => false
      | some b1 =>
        decide (h1.tag = S "html") && firstElemAt root (S "html") i0 &&
          decide (b1.tag = S "body") && firstElemAt h1 (S "body") i1 &&
          goodChainB b1 rest
  | _ => false

/-- The indexed path steps contributed by the chain below `body`. -/
def idxSteps : Node → Pos → List Str
  | _, [] => []
  | n, i :: p =>
    match n.children.get? i with
    | none => []
    | some c => getPathStep n i :: idxSteps c p

theorem chain_below :
    ∀ (p : Pos) (n : Node), goodChainB n p = true →
      ∃ prs, chainPairs n p = some prs ∧
        (prs.map fun pr => getPathStep pr.1 pr.2) = idxSteps n p ∧
        ∀ pr ∈ prs, ∃ c, pr.1.children.get? pr.2 = some c ∧
          c.isElem = true ∧ goodTagB c.tag = true := by
  intro p
  induction p with
  | nil =>
    intro n _
    exact ⟨[], rfl, rfl, by simp⟩
  | cons i p ih =>
    intro n h
    rw [goodChainB] at h
    cases hg : n.children.get? i with
    | none => rw [hg] at h; exact absurd h (by simp)
    | some c =>
      rw [hg] at h
      simp only [Bool.and_eq_true] at h
      obtain ⟨⟨he, ht⟩, hcp⟩ := h
      obtain ⟨prs, hchain, hmap, hall⟩ := ih c hcp
      refine ⟨(n, i) :: prs, ?_, ?_, ?_⟩
      · rw [chainPairs, hg, Option.some_bind, hchain, Option.map_some']
      · rw [List.map_cons, hmap, idxSteps, hg]
      · intro pr hpr
        rcases List.mem_cons.1 hpr with rfl | hpr'
        · exact ⟨c, hg, he, ht⟩
        · exact hall pr hpr'

/-- A bare-tag part selects the first element child with that tag, whose
index `firstElemAt` pins down. -/
theorem selectChildSrv_first (n : Node) (tgname : Str) (i : Nat) (c : Node)
    (hnb : ¬ (tgname.contains '[' = true ∧ tgname.contains ']' = true))
    (hfe : firstElemAt n tgname i = true)
    (hg : n.children.get? i = some c) :
    selectChildSrv n tgname = some (i, c) := by
  rw [selectChildSrv_bare n tgname hnb]
  rw [firstElemAt] at hfe
  cases hf : (elementChildren n).find? fun x => decide (x.2.tag = tgname) with
  | none => rw [hf] at hfe; exact absurd hfe (by simp)
  | some x =>
    rw [hf] at hfe
    rcases x with ⟨j, d⟩
    have hj : j = i := by
      have := of_decide_eq_true hfe
      exact this
    subst hj
    have hmem := List.mem_of_find?_eq_some hf
    have hgx := (eic_mem n.children 0 (j, d) hmem).2
    simp only [Nat.sub_zero] at hgx
    rw [hg] at hgx
    injection hgx with hgx
    rw [hgx]

theorem resolve_idxSteps :
    ∀ (p : Pos) (n : Node), goodChainB n p = true →
      resolvePartsSrv n (idxSteps n p) = some p := by
  intro p
  induction p with
  | nil => intro n _; rfl
  | cons i p ih =>
    intro n h
    rw [goodChainB] at h
    cases hg : n.children.get? i with
    | none => rw [hg] at h; exact absurd h (by simp)
    | some c =>
      rw [hg] at h
      simp only [Bool.and_eq_true] at h
      obtain ⟨⟨he, ht⟩, hcp⟩ := h
      obtain ⟨hh, hb, hchars⟩ := goodTagB_spec c.tag ht
      rw [idxSteps, hg, resolvePartsSrv]
      have hstep : getPathStep n i =
          c.tag ++ '[' :: natReprJS (siblingOrdinal n i c.tag) ++ [']'] := by
        rw [getPathStep, hg]
        exact if_neg fun hcon => hcon.elim (fun hx => hh hx) (fun hx => hb hx)
      rw [hstep, selectChildSrv_idx n c.tag _ hchars]
      have hsel := eic_filter_get c.tag n.children i c 0 hg he rfl
      simp only [Nat.zero_add] at hsel
      simp only [elementChildren, siblingOrdinal]
      rw [hsel, Option.some_bind, ih c hcp, Option.map_some']

theorem getPathLoop_append :
    ∀ (xs ys : List (Node × Nat)) (acc : List Str),
      (∀ pr ∈ xs, ∃ c, pr.1.children.get? pr.2 = some c ∧ c.tag ≠ S "html") →
      getPathLoop (xs ++ ys) acc =
        getPathLoop ys ((xs.map fun pr => getPathStep pr.1 pr.2).reverse ++ acc) := by
  intro xs
  induction xs with
  | nil => intro ys acc _; simp
  | cons x xs ih =>
    intro ys acc h
    obtain ⟨c, hg, hne⟩ := h x (by simp)
    rcases x with ⟨parent, i⟩
    rw [List.cons_append]
    simp only [getPathLoop]
    rw [hg]
    simp only [if_neg hne]
    rw [ih ys _ (fun pr hpr => h pr (by simp [hpr]))]
    simp [List.append_assoc]

/-- Under `goodDocB`, the `getPath` parts are `html`, `body`, then the
indexed steps below body. -/
theorem getPathParts_good (root : Node) (i0 i1 : Nat) (rest : Pos)
    (h1 b1 : Node)
    (hg0 : root.children.get? i0 = some h1)
    (hg1 : h1.children.get? i1 = some b1)
    (hhtml : h1.tag = S "html") (hbody : b1.tag = S "body")
    (hchain : goodChainB b1 rest = true) :
    getPathParts root (i0 :: i1 :: rest) =
      S "html" :: S "body" :: idxSteps b1 rest := by
  obtain ⟨prs, hcp, hmap, hall⟩ := chain_below rest b1 hchain
  rw [getPathParts]
  have hcp2 : chainPairs root (i0 :: i1 :: rest) =
      some ((root, i0) :: (h1, i1) :: prs) := by
    rw [chainPairs, hg0, Option.some_bind, chainPairs, hg1, Option.some_bind,
      hcp, Option.map_some', Option.map_some']
  rw [hcp2]
  show getPathLoop ((root, i0) :: (h1, i1) :: prs).reverse [] =
    S "html" :: S "body" :: idxSteps b1 rest
  have hrev : ((root, i0) :: (h1, i1) :: prs).reverse =
      (prs.reverse ++ [(h1, i1)]) ++ [(root, i0)] := by
    simp
  rw [hrev]
  have hcond : ∀ pr ∈ prs.reverse ++ [(h1, i1)],
      ∃ c, pr.1.children.get? pr.2 = some c ∧ c.tag ≠ S "html" := by
    intro pr hpr
    rcases List.mem_append.1 hpr with hl | hr
    · obtain ⟨c, hgc, _, htc⟩ := hall pr (List.mem_reverse.1 hl)
      exact ⟨c, hgc, (goodTagB_spec c.tag htc).1⟩
    · simp at hr
      subst hr
      refine ⟨b1, hg1, ?_⟩
      rw [hbody]
      decide
  rw [getPathLoop_append _ _ _ hcond]
  simp only [getPathLoop]
  rw [hg0]
  simp only [if_pos hhtml]
  have hstep0 : getPathStep root i0 = S "html" := by
    rw [getPathStep, hg0]
    exact (if_pos (Or.inl hhtml)).trans hhtml
  have hstep1 : getPathStep h1 i1 = S "body" := by
    rw [getPathStep, hg1]
    exact (if_pos (Or.inr hbody)).trans hbody
  rw [hstep0]
  simp only [List.map_append, List.reverse_append, List.map_reverse,
    List.reverse_reverse]
  simp [hstep1, hmap]

/-- Every indexed step below the body is nonempty and dot-free. -/
theorem idxSteps_no_dot :
    ∀ (p : Pos) (n : Node), goodChainB n p = true →
      ∀ part ∈ idxSteps n p, part ≠ [] ∧ '.' ∉ part := by
  intro p
  induction p with
  | nil => intro n _ part hpart; simp [idxSteps] at hpart
  | cons i p ih =>
    intro n h
    rw [goodChainB] at h
    cases hg : n.children.get? i with
    | none => rw [hg] at h; exact absurd h (by simp)
    | some c =>
      rw [hg] at h
      simp only [Bool.and_eq_true] at h
      obtain ⟨⟨he, ht⟩, hcp⟩ := h
      obtain ⟨hh, hb, hchars⟩ := goodTagB_spec c.tag ht
      intro part hpart
      rw [idxSteps, hg] at hpart
      rcases List.mem_cons.1 hpart with rfl | hpart'
      · have hstep : getPathStep n i =
            c.tag ++ '[' :: natReprJS (siblingOrdinal n i c.tag) ++ [']'] := by
          rw [getPathStep, hg]
          exact if_neg fun hcon => hcon.elim (fun hx => hh hx) (fun hx => hb hx)
        rw [hstep]
        constructor
        · intro hemp
          simp at hemp
        · intro hmem
          rcases List.mem_append.1 hmem with hl | hr
          · rcases List.mem_append.1 hl with hl1 | hl2
            · exact (hchars '.' hl1).1 rfl
            · rcases List.mem_cons.1 hl2 with hx | hx
              · exact absurd hx (by decide)
              · exact (natReprJS_no_dot _ '.' hx).1 rfl
          · simp at hr
      · exact ih c hcp part hpart'

/-- Round-trip of the path codec on a well-formed document position. -/
theorem roundtrip_good (root : Node) (pos : Pos) (h : goodDocB root pos = true) :
    findElementByPathHash root (generatePathHash (getPath root pos)) = some pos := by
  cases pos with
  | nil => exact Bool.noConfusion h
  | cons i0 pos1 =>
    cases pos1 with
    | nil => exact Bool.noConfusion h
    | cons i1 rest =>
      rw [goodDocB] at h
      cases hg0 : root.children.get? i0 with
      | none => rw [hg0] at h; exact Bool.noConfusion h
      | some h1 =>
        rw [hg0] at h
        have h' : (match h1.children.get? i1 with
            | none => false
            | some b1 =>
              decide (h1.tag = S "html") && firstElemAt root (S "html") i0 &&
                decide (b1.tag = S "body") && firstElemAt h1 (S "body") i1 &&
                goodChainB b1 rest) = true := h
        cases hg1 : h1.children.get? i1 with
        | none => rw [hg1] at h'; exact Bool.noConfusion h'
        | some b1 =>
          rw [hg1] at h'
          have h'' : (decide (h1.tag = S "html") && firstElemAt root (S "html") i0 &&
              decide (b1.tag = S "body") && firstElemAt h1 (S "body") i1 &&
              goodChainB b1 rest) = true := h'
          simp only [Bool.and_eq_true, decide_eq_true_eq] at h''
          obtain ⟨⟨⟨⟨hhtml, hfe0⟩, hbody⟩, hfe1⟩, hchain⟩ := h''
          have hnodot : ∀ q ∈ S "html" :: S "body" :: idxSteps b1 rest,
              '.' ∉ q := by
            intro q hq
            rcases List.mem_cons.1 hq with rfl | hq'
            · decide
            · rcases List.mem_cons.1 hq' with rfl | hq''
              · decide
              · exact (idxSteps_no_dot rest b1 hchain q hq'').2
          rw [findElementByPathHash, generatePathHash, getPath,
            b64decodeStr_encodeStr,
            getPathParts_good root i0 i1 rest h1 b1 hg0 hg1 hhtml hbody hchain,
            splitCh_joinCh '.' _ (by simp) hnodot,
            resolvePartsSrv,
            selectChildSrv_first root (S "html") i0 h1 (by decide) hfe0 hg0,
            Option.some_bind,
            resolvePartsSrv,
            selectChildSrv_first h1 (S "body") i1 b1 (by decide) hfe1 hg1,
            Option.some_bind,
            resolve_idxSteps rest b1 hchain, Option.map_some', Option.map_some']

/-- Resolution fails exactly when some step's child selection fails on the
node reached by the preceding steps (no matching same-tag child, or
ordinal out of range). -/
def ResolveFails (n : Node) (parts : List Str) : Prop :=
  ∃ k part q m, parts.get? k = some part ∧
    resolvePartsSrv n (parts.take k) = some q ∧
    nodeAt n q = some m ∧ selectChildSrv m part = none

theorem resolveParts_none_iff :
    ∀ (parts : List Str) (n : Node),
      resolvePartsSrv n parts = none ↔ ResolveFails n parts := by
  intro parts
  induction parts with
  | nil =>
    intro n
    constructor
    · intro h; simp [resolvePartsSrv] at h
    · rintro ⟨k, part, q, m, hget, -, -, -⟩
      simp at hget
  | cons part ps ih =>
    intro n
    cases hsel : selectChildSrv n part with
    | none =>
      constructor
      · intro _
        exact ⟨0, part, [], n, rfl, rfl, rfl, hsel⟩
      · intro _
        rw [resolvePartsSrv, hsel]
        rfl
    | some x =>
      have hL : resolvePartsSrv n (part :: ps) =
          (resolvePartsSrv x.2 ps).map (x.1 :: ·) := by
        rw [resolvePartsSrv, hsel, Option.some_bind]
      have hget : n.children.get? x.1 = some x.2 := selectChildSrv_get n part x hsel
      constructor
      · intro h
        rw [hL] at h
        have h2 : resolvePartsSrv x.2 ps = none := by
          cases hr : resolvePartsSrv x.2 ps with
          | none => rfl
          | some q => rw [hr] at h; simp at h
        obtain ⟨k, part', q', m, hget', hres', hnode, hselm⟩ := (ih x.2).1 h2
        refine ⟨k + 1, part', x.1 :: q', m, by simpa using hget', ?_, ?_, hselm⟩
        · rw [List.take_succ_cons, resolvePartsSrv, hsel, Option.some_bind,
            hres', Option.map_some']
        · rw [nodeAt, hget, Option.some_bind]
          exact hnode
      · rintro ⟨k, part', q, m, hget', hres', hnode, hselm⟩
        rw [hL]
        cases k with
        | zero =>
          simp at hget'
          subst hget'
          simp [resolvePartsSrv] at hres'
          subst hres'
          simp [nodeAt] at hnode
          subst hnode
          rw [hsel] at hselm
          exact absurd hselm (by simp)
        | succ k =>
          rw [List.take_succ_cons, resolvePartsSrv, hsel, Option.some_bind] at hres'
          cases hr : resolvePartsSrv x.2 (ps.take k) with
          | none => rw [hr] at hres'; simp at hres'
          | some q' =>
            rw [hr, Option.map_some'] at hres'
            injection hres' with hq
            subst hq
            rw [nodeAt, hget, Option.some_bind] at hnode
            have hn2 : resolvePartsSrv x.2 ps = none :=
              (ih x.2).2 ⟨k, part', q', m, by simpa using hget', hr, hnode, hselm⟩
            rw [hn2]
            rfl

/-- C1: Address round-trip.  For every document and every addressable
position in it — the shape a parsed document gives every container
element reached by `getPath`: the `html` element is the first
`html`-tagged element child of the root, `body` the first `body`-tagged
element child of `html`, and below `body` the position descends through
element children whose tags are neither `html` nor `body` and contain no
`.`/`[`/`]` — decoding the id produced by the path encoder
(`generatePathHash ∘ getPath`) and resolving it with
`findElementByPathHash` against the same tree yields exactly that
position.  Moreover resolution fails (NotFound) precisely when some step's
child selection fails on the node reached by the preceding steps, i.e.
when a step has no matching same-tag child or its ordinal is out of
range. -/
theorem c1_address_roundtrip :
    (∀ (root : Node) (pos : Pos), goodDocB root pos = true →
      findElementByPathHash root (generatePathHash (getPath root pos)) = some pos) ∧
    (∀ (root : Node) (parts : List Str),
      resolvePartsSrv root parts = none ↔ ResolveFails root parts) :=
  ⟨roundtrip_good, fun root parts => resolveParts_none_iff parts root⟩

/-- Witness for C1 at the concrete document of the spec's extract example:
the position of the `p` element. -/
theorem c1_witness :
    goodDocB exDoc2 [0, 1, 0, 1] = true ∧
    findElementByPathHash exDoc2
      (generatePathHash (getPath exDoc2 [0, 1, 0, 1])) = some [0, 1, 0, 1] :=
  ⟨by decide, c1_address_roundtrip.1 exDoc2 [0, 1, 0, 1] (by decide)⟩

end JsdomEM
